import Mathlib

/-!
Shallow embedding of the `smart-config` schema engine, error model and
fallback overlay, translated from
`src/crates/smart-config/src/schema/mod.rs`,
`src/crates/smart-config/src/error.rs` and
`src/crates/smart-config/src/fallback.rs`.

Modules of the crate that are referenced by this code but are not present
under `src/` (`schema/mount.rs`, `metadata.rs`, `value.rs`, `utils.rs`) are
modelled from the spec; each such definition carries a doc comment starting
with `Modelled from the spec:`.

Rust's `&'static ConfigMetadata` references into the static metadata graph
are modelled by an explicit registry function `reg : TypeId → ConfigMeta`,
mirroring the fact that in Rust there is exactly one static metadata value
per configuration type id.  The unbounded worklist loop of
`PatchedSchema::insert_recursively` is modelled with an explicit fuel
parameter; running out of fuel yields an error, which matches the fact that
all claims about successful runs are conditioned on the operation
succeeding.
-/

namespace SmartConfig

/-- Process-wide unique type identifier (`std::any::TypeId`). -/
abbrev TypeId := Nat

/-- Modelled from the spec: alias options from `metadata.rs` (missing from
`src/`); the only observable option is the deprecation flag. -/
structure AliasOptions where
  is_deprecated : Bool
deriving DecidableEq, Repr

/-- Modelled from the spec: `AliasOptions::new()` — a non-deprecated alias. -/
def AliasOptions.new : AliasOptions := ⟨false⟩

/-- Modelled from the spec: `AliasOptions::default()` coincides with `new()`. -/
instance : Inhabited AliasOptions := ⟨AliasOptions.new⟩

/-- Modelled from the spec: combining alias options — "a child alias is
deprecated if either the parent's path-entry or the local alias is marked
deprecated". -/
def AliasOptions.combine (a b : AliasOptions) : AliasOptions :=
  ⟨a.is_deprecated || b.is_deprecated⟩

/-- Modelled from the spec: `BasicTypes` from `metadata.rs` (missing from
`src/`) — "a small closed set of basic kinds (string/number/bool/...)",
represented as a nonempty bit set.  A parameter always expects at least one
basic kind, hence the mask is nonzero. -/
def BasicTypes := { mask : Nat // mask ≠ 0 }

instance : DecidableEq BasicTypes := fun a b =>
  decidable_of_iff (a.val = b.val) Subtype.ext_iff.symm

/-- Disjointness of two expected-type sets (empty bitwise intersection). -/
def BasicTypes.Disjoint (a b : BasicTypes) : Prop := a.val &&& b.val = 0

instance (a b : BasicTypes) : Decidable (a.Disjoint b) :=
  inferInstanceAs (Decidable (a.val &&& b.val = 0))

/-- Modelled from the spec: joining a path and a simple segment
(`Pointer::join` from `value.rs`, missing from `src/`).  Flattened nested
configs (empty name) reuse the parent's own path. -/
def Ptr.join (p s : String) : String :=
  if s = "" then p else if p = "" then s else p ++ "." ++ s

/-- Whether a local alias is a relative path (starts with a dot). -/
def startsDot (s : String) : Bool :=
  match s.data with
  | [] => false
  | c :: _ => c = '.'

/-- The alias with its leading dot removed. -/
def dropDot (s : String) : String := String.mk s.data.tail

/-- Modelled from the spec: joining a path and a local name-or-alias
(`Pointer::join_path` from `value.rs`, missing from `src/`).  A local alias
may be a relative path (starting with `.`); its segments are appended to the
parent path.  Per the spec every parent path × local name pair joins into
one absolute path, so the operation always succeeds. -/
def Ptr.joinPath (p s : String) : Option String :=
  if startsDot s then some (Ptr.join p (dropDot s)) else some (Ptr.join p s)

/-- Modelled from the spec: validity of an enum variant name as a path
segment (`EnumVariant::new` from `utils.rs`, missing from `src/`); variant
names that fail to case-fold to a valid path segment are skipped, so
validity requires a nonempty alphanumeric ASCII name. -/
def EnumVariant.new (s : String) : Option String :=
  if s ≠ "" ∧ s.data.all (fun c => c.isAlphanum) then some s else none

/-- Modelled from the spec: case-folding a variant name to snake case
(`EnumVariant::to_snake_case`); an underscore is inserted before each
uppercase letter except a leading one, and all letters are lowered, e.g.
`SomeTag` becomes `some_tag`. -/
def EnumVariant.to_snake_case (s : String) : String :=
  String.mk (s.toList.foldl
    (fun acc c =>
      if c.isUpper then
        (if acc = [] then [c.toLower] else acc ++ ['_', c.toLower])
      else acc ++ [c]) [])

/-- Modelled from the spec: a tag variant descriptor (`ConfigVariant` from
`metadata.rs`): the tag name and its aliases. -/
structure ConfigVariant where
  name : String
  aliases : List String
deriving DecidableEq, Repr

/-- Modelled from the spec: the origin descriptor of a value (`ValueOrigin`
from `value.rs`, missing from `src/`): unspecified, a named external source,
a path within a source, a synthetic transform of another origin, or the
fallback overlay marker. -/
inductive ValueOrigin where
  | unknown : ValueOrigin
  | env_vars : ValueOrigin
  | path (source : ValueOrigin) (p : String) : ValueOrigin
  | synthetic (source : ValueOrigin) (transform : String) : ValueOrigin
  | fallbacks : ValueOrigin
deriving DecidableEq, Repr

/-- Modelled from the spec: rendering of an origin for diagnostics; the
exact text of non-unknown origins is opaque to the claims. -/
def ValueOrigin.render : ValueOrigin → String
  | .unknown => "unknown"
  | .env_vars => "env variables"
  | .path src p => ValueOrigin.render src ++ " -> path '" ++ p ++ "'"
  | .synthetic src t => ValueOrigin.render src ++ " -> " ++ t
  | .fallbacks => "fallbacks"

/-- Modelled from the spec: the dynamic value representation is an opaque
collaborator; only passed through unchanged, so a minimal inductive
suffices. -/
inductive Value where
  | null : Value
  | str (s : String) : Value
deriving DecidableEq, Repr

/-- Value (or error) together with its origin (`WithOrigin<T>` from
`value.rs`, monomorphised to values). -/
structure WithOrigin where
  inner : Value
  origin : ValueOrigin
deriving DecidableEq, Repr

/-- Fallback source of a configuration param (`FallbackSource` trait from
`fallback.rs`): per the spec a pure capability "maybe produce a value with
an origin, independent of any location in the tree". -/
structure FallbackSrc where
  provide_value : Option WithOrigin
deriving DecidableEq, Repr

/-- Modelled from the spec: parameter metadata (`ParamMetadata` from
`metadata.rs`, missing from `src/`): name, Rust field name, ordered alias
list with options, expected-type set, optional tag variant, optional
fallback source. -/
structure ParamMetadata where
  name : String
  rust_field_name : String
  aliases : List (String × AliasOptions)
  expecting : BasicTypes
  tag_variant : Option ConfigVariant
  fallback : Option FallbackSrc
deriving DecidableEq

/-- Modelled from the spec: nested-config descriptor
(`NestedConfigMetadata`): local name (empty for flattened configs), aliases,
optional tag variant, and the reference to the child metadata (modelled as
the child's type id into the registry). -/
structure NestedRef where
  name : String
  aliases : List (String × AliasOptions)
  tag_variant : Option ConfigVariant
  child_ty : TypeId
deriving DecidableEq

/-- Modelled from the spec: configuration type metadata (`ConfigMetadata`):
declared name for diagnostics, ordered parameters, ordered nested-config
descriptors.  The registry key stands for `metadata.ty.id()`. -/
structure ConfigMeta where
  ty_name : String
  params : List ParamMetadata
  nested_configs : List NestedRef
deriving DecidableEq

/-- The static metadata graph: one immutable metadata value per type id,
modelling Rust's `&'static ConfigMetadata` references. -/
abbrev Registry := TypeId → ConfigMeta

/-- Association-list lookup (first match), used to model `HashMap` /
`BTreeMap` lookups. -/
def alGet {κ α : Type} [DecidableEq κ] : List (κ × α) → κ → Option α
  | [], _ => none
  | (k', v) :: rest, k => if k' = k then some v else alGet rest k

/-- Association-list insert-or-overwrite (in place), modelling `HashMap` /
`BTreeMap` insertion. -/
def alInsert {κ α : Type} [DecidableEq κ] : List (κ × α) → κ → α → List (κ × α)
  | [], k, v => [(k, v)]
  | (k', v') :: rest, k, v =>
    if k' = k then (k, v) :: rest else (k', v') :: alInsert rest k v

/-- Association-list lookup with a default value. -/
def alGetD {κ α : Type} [DecidableEq κ] (l : List (κ × α)) (k : κ) (d : α) : α :=
  match alGet l k with
  | some v => v
  | none => d

/-- Mounting point at an absolute path (`MountingPoint` from
`schema/mount.rs`, missing from `src/`; modelled from the spec): either a
config mount or a param mount carrying the expected-type set and the
canonicity flag. -/
inductive MountingPoint where
  | config : MountingPoint
  | param (expecting : BasicTypes) (is_canonical : Bool) : MountingPoint
deriving DecidableEq

/-- Modelled from the spec: the path-keyed mounting-point index
(`MountingPoints` from `schema/mount.rs`). -/
abbrev MountingPoints := List (String × MountingPoint)

/-- Link from a nested config registration to its parent (`ParentLink`). -/
structure ParentLink where
  parent_ty : TypeId
  this_ref : NestedRef
deriving DecidableEq

/-- One registration record for a config type (`ConfigData`): the metadata
reference (as a type id into the registry), optional parent link, top-level
flag, enum-coercion flag, and the ordered list of absolute paths with their
alias options (canonical path first). -/
structure ConfigData where
  ty : TypeId
  parent_link : Option ParentLink
  is_top_level : Bool
  coerce_serde_enums : Bool
  all_paths : List (String × AliasOptions)
deriving DecidableEq

/-- Set of configs registered at one canonical prefix
(`ConfigsForPrefix`): a type-id-keyed map plus the depth index. -/
structure ConfigsForPrefix where
  inner : List (TypeId × ConfigData)
  by_depth : List (Nat × TypeId)
deriving DecidableEq

/-- The empty `ConfigsForPrefix` (its `Default`). -/
def ConfigsForPrefix.empty : ConfigsForPrefix := ⟨[], []⟩

/-- `BTreeSet`-style insertion into the depth index (no duplicates). -/
def depthInsert (l : List (Nat × TypeId)) (p : Nat × TypeId) : List (Nat × TypeId) :=
  if p ∈ l then l else l ++ [p]

/-- `ConfigsForPrefix::insert`. -/
def ConfigsForPrefix.insertC (cf : ConfigsForPrefix) (ty : TypeId)
    (depth : Option Nat) (data : ConfigData) : ConfigsForPrefix :=
  { inner := alInsert cf.inner ty data,
    by_depth := match depth with
      | some d => depthInsert cf.by_depth (d, ty)
      | none => cf.by_depth }

/-- `ConfigsForPrefix::extend`. -/
def ConfigsForPrefix.extendC (cf other : ConfigsForPrefix) : ConfigsForPrefix :=
  { inner := other.inner.foldl (fun acc td => alInsert acc td.1 td.2) cf.inner,
    by_depth := other.by_depth.foldl depthInsert cf.by_depth }

/-- Schema for configuration (`ConfigSchema`): canonical-prefix-keyed
config registry, the mounting-point index, and the enum-coercion toggle. -/
structure ConfigSchema where
  configs : List (String × ConfigsForPrefix)
  mounting_points : MountingPoints
  coerce_serde_enums : Bool
deriving DecidableEq

/-- `ConfigSchema::default()`. -/
def ConfigSchema.empty : ConfigSchema := ⟨[], [], false⟩

/-- `ConfigSchema::coerce_serde_enums`. -/
def ConfigSchema.set_coerce (σ : ConfigSchema) (b : Bool) : ConfigSchema :=
  { σ with coerce_serde_enums := b }

/-- `ConfigSchema::get_ll`: lookup of a config registration by canonical
prefix and type id. -/
def ConfigSchema.get_ll (σ : ConfigSchema) (pfx : String) (ty : TypeId) :
    Option ConfigData :=
  match alGet σ.configs pfx with
  | none => none
  | some cf => alGet cf.inner ty

/-- Local names of a child: the name itself first, then the static aliases
(`iter::once((name, AliasOptions::default())).chain(aliases)` in
`ConfigData::all_paths_for_child`). -/
def localNames (name : String) (aliases : List (String × AliasOptions)) :
    List (String × AliasOptions) :=
  (name, AliasOptions.new) :: aliases

/-- The synthetic enum-tag names of a child
(`ConfigData::all_paths_for_child`, enum branch): when coercion is enabled
and the child carries a tag variant, every variant name (tag name first,
then the tag aliases) that case-folds to a valid path segment is combined
with every simple (non-path) local name. -/
def enumNames (coerce : Bool) (name : String)
    (aliases : List (String × AliasOptions))
    (tag_variant : Option ConfigVariant) : List (String × AliasOptions) :=
  match coerce, tag_variant with
  | true, some v =>
    ((v.name :: v.aliases).filterMap
        (fun nm => (EnumVariant.new nm).map EnumVariant.to_snake_case)).flatMap
      (fun variant_name =>
        (localNames name aliases).filterMap
          (fun no =>
            if startsDot no.1 then none
            else some (Ptr.join variant_name no.1, no.2)))
  | _, _ => []

/-- `ConfigData::all_paths_for_child`: the prioritized list of absolute
paths of a child (param or nested config), iterating the config's own
paths in the outer loop and the local names (followed by the synthetic
enum-tag names) in the inner loop, combining alias options. -/
def ConfigData.all_paths_for_child (data : ConfigData) (name : String)
    (aliases : List (String × AliasOptions))
    (tag_variant : Option ConfigVariant) : List (String × AliasOptions) :=
  let locals := localNames name aliases ++
    enumNames data.coerce_serde_enums name aliases tag_variant
  data.all_paths.flatMap
    (fun ac =>
      locals.filterMap
        (fun no =>
          (Ptr.joinPath ac.1 no.1).map (fun fp => (fp, no.2.combine ac.2))))

/-- `ConfigData::all_paths_for_param`. -/
def ConfigData.all_paths_for_param (data : ConfigData) (param : ParamMetadata) :
    List (String × AliasOptions) :=
  data.all_paths_for_child param.name param.aliases param.tag_variant

/-- `ConfigData::prefix` — the canonical prefix indexes `all_paths[0]` and
panics when the path list is empty, so it is modelled as an `Option`. -/
def ConfigData.pfx (data : ConfigData) : Option String :=
  data.all_paths.head?.map (fun pr => pr.1)

/-- `PatchedSchema::list_nested_configs`: the pending registrations for all
nested configs of a config, keyed by the canonical child prefix. -/
def list_nested_configs (reg : Registry) (pfx : String) (data : ConfigData) :
    List (String × ConfigData) :=
  (reg data.ty).nested_configs.map
    (fun nested =>
      (Ptr.join pfx nested.name,
        { ty := nested.child_ty,
          parent_link := some ⟨data.ty, nested⟩,
          is_top_level := false,
          coerce_serde_enums := data.coerce_serde_enums,
          all_paths :=
            data.all_paths_for_child nested.name nested.aliases
              nested.tag_variant }))

/-- `ConfigSchema` together with a patch that can be atomically committed
(`PatchedSchema`): the base is only read during staging, all writes target
the patch. -/
structure PatchedSchema where
  base : ConfigSchema
  patch : ConfigSchema
deriving DecidableEq

/-- Result of a staging operation: either success or a descriptive error,
in both cases together with the `PatchedSchema` as left by the operation
(in Rust the errored `PatchedSchema` is dropped undisturbed, releasing the
mutable borrow of the base). -/
inductive OpRes where
  | ok (ps : PatchedSchema) : OpRes
  | error (e : String) (ps : PatchedSchema) : OpRes
deriving DecidableEq

/-- The `PatchedSchema` carried by an operation result, in either branch. -/
def OpRes.state : OpRes → PatchedSchema
  | .ok ps => ps
  | .error _ ps => ps

/-- `PatchedSchema::mount`: mounting-point lookup consulting the patch
first, then the base. -/
def PatchedSchema.mountGet (ps : PatchedSchema) (path : String) :
    Option MountingPoint :=
  match alGet ps.patch.mounting_points path with
  | some m => some m
  | none => alGet ps.base.mounting_points path

/-- Insertion of a mounting point into the patch. -/
def PatchedSchema.mountInsert (ps : PatchedSchema) (path : String)
    (m : MountingPoint) : PatchedSchema :=
  { ps with patch :=
      { ps.patch with mounting_points := alInsert ps.patch.mounting_points path m } }

/-- The config-paths loop of `PatchedSchema::insert_inner`: each absolute
path of the config must not hold a param mount; a `Config` mounting point
is recorded for it in the patch. -/
def mountConfigPaths (cfg_name : String) :
    List String → PatchedSchema → OpRes
  | [], ps => .ok ps
  | path :: rest, ps =>
    match ps.mountGet path with
    | some (.param _ _) =>
      .error ("Cannot mount config `" ++ cfg_name ++ "` at `" ++ path ++
        "` because parameter(s) are already mounted at this path") ps
    | _ => mountConfigPaths cfg_name rest (ps.mountInsert path .config)

/-- The body of the per-path loop for one param in
`PatchedSchema::insert_inner`: a config mount at the path is fatal, a param
mount with a different expected-type set is fatal, otherwise the param
mount is recorded, canonical iff the existing mount was canonical or this
is the param's first (highest-priority) path. -/
def mountParamPath (ps : PatchedSchema) (param : ParamMetadata)
    (cfg_name : String) (full_name : String) (name_i : Nat) : OpRes :=
  match ps.mountGet full_name with
  | some .config =>
    .error ("Cannot insert param `" ++ param.name ++ "` [Rust field: `" ++
      param.rust_field_name ++ "`] from config `" ++ cfg_name ++ "` at `" ++
      full_name ++ "`: config(s) are already mounted at this path") ps
  | some (.param prev_expecting was_canonical) =>
    if prev_expecting ≠ param.expecting then
      .error ("Cannot insert param `" ++ param.name ++ "` [Rust field: `" ++
        param.rust_field_name ++ "`] from config `" ++ cfg_name ++ "` at `" ++
        full_name ++
        "`: it expects different types than the existing param(s) mounted at this path") ps
    else
      .ok (ps.mountInsert full_name
        (.param param.expecting (was_canonical || name_i == 0)))
  | none =>
    .ok (ps.mountInsert full_name (.param param.expecting (name_i == 0)))

/-- The per-param loop over all its absolute paths (enumerated). -/
def mountParamPaths (param : ParamMetadata) (cfg_name : String) :
    List (String × AliasOptions) → Nat → PatchedSchema → OpRes
  | [], _, ps => .ok ps
  | fo :: rest, i, ps =>
    match mountParamPath ps param cfg_name fo.1 i with
    | .error e ps' => .error e ps'
    | .ok ps' => mountParamPaths param cfg_name rest (i + 1) ps'

/-- The params loop of `PatchedSchema::insert_inner`. -/
def mountParams (cfg_name : String) (data : ConfigData) :
    List ParamMetadata → PatchedSchema → OpRes
  | [], ps => .ok ps
  | param :: rest, ps =>
    match mountParamPaths param cfg_name (data.all_paths_for_param param) 0 ps with
    | .error e ps' => .error e ps'
    | .ok ps' => mountParams cfg_name data rest ps'

/-- Insertion of config data into the patch registry
(`self.patch.configs.entry(prefix).or_default().insert(...)`). -/
def patchConfigsInsert (ps : PatchedSchema) (pfx : String) (ty : TypeId)
    (depth : Option Nat) (data : ConfigData) : PatchedSchema :=
  let cf := alGetD ps.patch.configs pfx ConfigsForPrefix.empty
  let configs' := alInsert ps.patch.configs pfx (cf.insertC ty depth data)
  { ps with patch := { ps.patch with configs := configs' } }

/-- The path-list merge at the end of `PatchedSchema::insert_inner`: when
the base already registers this (prefix, type), the new paths are appended
behind the existing ones, since ordering determines alias priority. -/
def mergeData (base : ConfigSchema) (pfx : String) (data : ConfigData) :
    ConfigData :=
  match base.get_ll pfx data.ty with
  | some prev => { data with all_paths := prev.all_paths ++ data.all_paths }
  | none => data

/-- `PatchedSchema::insert_inner`: mounting-point conflict checks for the
config itself and for every path of each of its params, then registration
of the config data in the patch, extending (never replacing) the path list
already present in the base for the same prefix and type. -/
def insert_inner (reg : Registry) (pfx : String) (depth : Option Nat)
    (data : ConfigData) (ps : PatchedSchema) : OpRes :=
  let cfg_name := (reg data.ty).ty_name
  match mountConfigPaths cfg_name (pfx :: data.all_paths.map Prod.fst) ps with
  | .error e ps' => .error e ps'
  | .ok ps1 =>
    match mountParams cfg_name data (reg data.ty).params ps1 with
    | .error e ps' => .error e ps'
    | .ok ps2 => .ok (patchConfigsInsert ps2 pfx data.ty depth (mergeData ps2.base pfx data))

/-- The worklist loop of `PatchedSchema::insert_recursively`: pop a pending
registration; skip its whole subtree when this is a brand-new insertion of
a config already present in the base; otherwise push its nested configs
(processed in LIFO order, matching `Vec::pop`) and apply `insert_inner`.
The explicit fuel models the unbounded Rust loop. -/
def processItems (reg : Registry) (is_new : Bool) :
    Nat → List (String × ConfigData × Option Nat) → PatchedSchema → OpRes
  | _, [], ps => .ok ps
  | 0, _ :: _, ps => .error "recursion depth exceeded" ps
  | fuel + 1, (pfx, data, depth) :: rest, ps =>
    if is_new ∧ (ps.base.get_ll pfx data.ty).isSome then
      processItems reg is_new fuel rest ps
    else
      let children := (list_nested_configs reg pfx data).map
        (fun pd => (pd.1, pd.2, depth.map (· + 1)))
      match insert_inner reg pfx depth data ps with
      | .error e ps' => .error e ps'
      | .ok ps' => processItems reg is_new fuel (children.reverse ++ rest) ps'

/-- `PatchedSchema::commit`: merge every staged config registration into
the base registry (extending existing prefix entries) and every staged
mounting point into the base index. -/
def PatchedSchema.commit (ps : PatchedSchema) : ConfigSchema :=
  { configs := ps.patch.configs.foldl
      (fun acc kcf =>
        alInsert acc kcf.1
          ((alGetD acc kcf.1 ConfigsForPrefix.empty).extendC kcf.2)) ps.base.configs,
    mounting_points := ps.patch.mounting_points.foldl
      (fun acc km => alInsert acc km.1 km.2) ps.base.mounting_points,
    coerce_serde_enums := ps.base.coerce_serde_enums }

/-- `PatchedSchema::insert_config` followed by the caller's `commit`
(`ConfigSchema::insert`): seeds a top-level registration with a fresh
one-element path list and runs the worklist; on success the patch is
committed, on failure it is dropped and the base is returned unchanged. -/
def ConfigSchema.insert (reg : Registry) (fuel : Nat) (σ : ConfigSchema)
    (ty : TypeId) (pfx : String) : Except String Unit × ConfigSchema :=
  let data : ConfigData :=
    { ty := ty,
      parent_link := none,
      is_top_level := true,
      coerce_serde_enums := σ.coerce_serde_enums,
      all_paths := [(pfx, AliasOptions.new)] }
  match processItems reg true fuel [(pfx, data, some 0)] ⟨σ, ConfigSchema.empty⟩ with
  | .ok ps => (.ok (), ps.commit)
  | .error e ps => (.error e, ps.base)

/-- `PatchedSchema::insert_alias`: a no-op when the alias is already one of
the config's paths; otherwise a pending registration carrying only the new
alias path is processed with depth "not new", so existing children are only
updated, never duplicated.  The Rust code indexes
`base.configs[prefix][type]` (a `ConfigMut` always exists for a registered
config); the missing case is modelled as an error. -/
def insert_alias (reg : Registry) (fuel : Nat) (ps : PatchedSchema)
    (pfx : String) (ty : TypeId) (al : String) (options : AliasOptions) :
    OpRes :=
  match ps.base.get_ll pfx ty with
  | none => .error "config is not registered in the schema" ps
  | some cd =>
    if cd.all_paths.any (fun pr => pr.1 = al) then .ok ps
    else
      processItems reg false fuel
        [(pfx, { cd with all_paths := [(al, options)] }, none)] ps

/-- `ConfigMut::push_alias_inner`: stage the alias insertion and commit it
atomically; on failure the base is returned unchanged. -/
def push_alias_inner (reg : Registry) (fuel : Nat) (σ : ConfigSchema)
    (pfx : String) (ty : TypeId) (al : String) (options : AliasOptions) :
    Except String Unit × ConfigSchema :=
  match insert_alias reg fuel ⟨σ, ConfigSchema.empty⟩ pfx ty al options with
  | .ok ps => (.ok (), ps.commit)
  | .error e ps => (.error e, ps.base)

/-- `ConfigMut::push_alias`. -/
def push_alias (reg : Registry) (fuel : Nat) (σ : ConfigSchema) (pfx : String)
    (ty : TypeId) (al : String) : Except String Unit × ConfigSchema :=
  push_alias_inner reg fuel σ pfx ty al AliasOptions.new

/-- `ConfigMut::push_deprecated_alias`. -/
def push_deprecated_alias (reg : Registry) (fuel : Nat) (σ : ConfigSchema)
    (pfx : String) (ty : TypeId) (al : String) :
    Except String Unit × ConfigSchema :=
  push_alias_inner reg fuel σ pfx ty al ⟨true⟩

/-- `ConfigSchema::iter_ll`: all config registrations with their canonical
prefixes. -/
def ConfigSchema.iter_ll (σ : ConfigSchema) : List (String × ConfigData) :=
  σ.configs.flatMap (fun kcf => kcf.2.inner.map (fun td => (kcf.1, td.2)))

/-- The fallback overlay (`Fallbacks` from `fallback.rs`): a flat map from
(canonical prefix, param name) to the provided value, plus the overlay
origin marker. -/
structure Fallbacks where
  inner : List ((String × String) × WithOrigin)
  origin : ValueOrigin
deriving DecidableEq

/-- The synthetic origin wrapped around a fallback-provided value in
`Fallbacks::new`. -/
def fallbackWrap (cfg : ConfigMeta) (param : ParamMetadata)
    (val : WithOrigin) : WithOrigin :=
  let o := ValueOrigin.synthetic val.origin
    ("fallback for `" ++ cfg.ty_name ++ "." ++ param.rust_field_name ++ "`")
  { val with origin := o }

/-- `Fallbacks::new`: walk every mounted parameter of the committed schema
once; every parameter whose fallback source provides a value contributes an
entry keyed by (canonical prefix, param name) with the synthetic origin;
`None` is returned when no parameter produced a value. -/
def Fallbacks.new (reg : Registry) (σ : ConfigSchema) : Option Fallbacks :=
  let inner := σ.iter_ll.foldl
    (fun acc pc =>
      ((reg pc.2.ty).params).foldl
        (fun acc param =>
          match param.fallback with
          | none => acc
          | some fb =>
            match fb.provide_value with
            | none => acc
            | some val =>
              alInsert acc (pc.1, param.name)
                (fallbackWrap (reg pc.2.ty) param val)) acc) []
  if inner.isEmpty then none else some ⟨inner, .fallbacks⟩

/-- The error category (`ParseErrorCategory` from `error.rs`). -/
inductive ParseErrorCategory where
  | generic : ParseErrorCategory
  | missingField : ParseErrorCategory
deriving DecidableEq

/-- A `serde_json::Error`, modelled by its rendered message. -/
structure JsonError where
  message : String
deriving DecidableEq

/-- The message produced by serde's `de::Error::missing_field`. -/
def JsonError.missing_field (field : String) : JsonError :=
  ⟨"missing field `" ++ field ++ "`"⟩

/-- Location of an error within a config (`LocationInConfig`). -/
inductive LocationInConfig where
  | param (idx : Nat) : LocationInConfig
deriving DecidableEq

/-- Config parameter deserialization error (`ParseError` from `error.rs`):
the low-level cause, its category, the resolved absolute path, the origin
of the offending value, the owning config's metadata, the optional location
within the config, and the optional validation description. -/
structure ParseError where
  inner : JsonError
  category : ParseErrorCategory
  path : String
  origin : ValueOrigin
  config : ConfigMeta
  location_in_config : Option LocationInConfig
  validation : Option String
deriving DecidableEq

/-- The `Display` implementation for `ParseError`: optional
"param `<name>` in " segment, the failed action, the config name, the path,
the origin (omitted entirely when unknown) and the underlying cause. -/
def ParseError.render (e : ParseError) : String :=
  let field := match e.location_in_config with
    | some (.param idx) =>
      match e.config.params.get? idx with
      | some param => "param `" ++ param.name ++ "` in "
      | none => ""
    | none => ""
  let origin := match e.origin with
    | .unknown => ""
    | o => " [origin: " ++ o.render ++ "]"
  let failed_action := match e.validation with
    | some v => "validating '" ++ v ++ "' for"
    | none => "parsing"
  "error " ++ failed_action ++ " " ++ field ++ "`" ++ e.config.ty_name ++
    "` at `" ++ e.path ++ "`" ++ origin ++ ": " ++ e.inner.message

/-- Collection of parse errors (`ParseErrors`). -/
structure ParseErrors where
  errors : List ParseError
deriving DecidableEq

/-- `ParseErrors::len`. -/
def ParseErrors.len (es : ParseErrors) : Nat := es.errors.length

/-- `ParseErrors::first` indexes the first error and panics when empty, so
it is modelled as an `Option`. -/
def ParseErrors.first? (es : ParseErrors) : Option ParseError :=
  es.errors.head?

/-- The `FromIterator<ParseError> for Result<(), ParseErrors>` impl:
collecting zero errors yields success, otherwise the populated error
collection, in encounter order. -/
def collectParseResults (l : List ParseError) : Except ParseErrors Unit :=
  if l.isEmpty then .ok () else .error ⟨l⟩

/-- Whether an operation result is an error. -/
def isErr : Except String Unit → Bool
  | .ok _ => false
  | .error _ => true

/-- Keys of an association list are pairwise distinct. -/
def alNodup {κ α : Type} (l : List (κ × α)) : Prop := (l.map Prod.fst).Nodup

instance {κ α : Type} [DecidableEq κ] (l : List (κ × α)) :
    Decidable (alNodup l) :=
  inferInstanceAs (Decidable (l.map Prod.fst).Nodup)

/-- Spec 4.2, stated from the spec's words: the generated absolute-path set
is the Cartesian combination — for every parent path (outer) × every local
name-or-alias (inner), join them into one absolute path; a combined alias
is deprecated iff the parent's path entry or the local alias is marked
deprecated. -/
def cartesianSpec (parents locals : List (String × AliasOptions)) :
    List (String × AliasOptions) :=
  parents.flatMap
    (fun p =>
      locals.filterMap
        (fun n =>
          (Ptr.joinPath p.1 n.1).map
            (fun fp => (fp, ⟨p.2.is_deprecated || n.2.is_deprecated⟩))))

/-- Spec 4.3, stated from the spec's words: for every variant name (the tag
name and, separately, each tag alias) that case-folds to a valid path
segment, every simple (non-path) local name-or-alias yields one synthetic
alias `<variant>.<name>`; variant names failing to case-fold are silently
skipped. -/
def enumSpec (v : ConfigVariant) (locals : List (String × AliasOptions)) :
    List (String × AliasOptions) :=
  (v.name :: v.aliases).flatMap
    (fun nm =>
      match EnumVariant.new nm with
      | none => []
      | some valid =>
        locals.filterMap
          (fun n =>
            if startsDot n.1 then none
            else some (Ptr.join (EnumVariant.to_snake_case valid) n.1, n.2)))

/-- Well-formedness of the metadata graph: nested-config names are field
names, never relative paths (true of all metadata produced by the Rust
derive macro). -/
def RegOK (reg : Registry) : Prop :=
  ∀ t n, n ∈ (reg t).nested_configs → startsDot n.name = false

/-- Prefix test on character lists. -/
def listIsPre : List Char → List Char → Bool
  | [], _ => true
  | _ :: _, [] => false
  | a :: p, b :: s => a = b && listIsPre p s

/-- Containment test on character lists. -/
def listIsSub (p : List Char) : List Char → Bool
  | [] => p.isEmpty
  | c :: rest => listIsPre p (c :: rest) || listIsSub p rest

/-- Substring test used to state rendering claims. -/
def containsSub (s pat : String) : Bool := listIsSub pat.data s.data

/-- `ParseError::param`: the failing parameter, when the error is
attributable to one specific parameter of the config. -/
def ParseError.param? (e : ParseError) : Option ParamMetadata :=
  match e.location_in_config with
  | some (.param idx) => e.config.params.get? idx
  | none => none

/-- Spec 4.6, stated from the spec's words: the rendering of a `ParseError`
composes the optional "param `<name>` in " segment (present when the error
is attributable to a specific parameter), the failed action, the config's
declared name, the absolute path, the origin segment (omitted entirely when
the origin is unknown), and the underlying cause. -/
def renderSpec (e : ParseError) : String :=
  let paramSeg := match e.param? with
    | some p => "param `" ++ p.name ++ "` in "
    | none => ""
  let actionSeg := match e.validation with
    | some d => "validating '" ++ d ++ "' for"
    | none => "parsing"
  let originSeg :=
    if e.origin = .unknown then "" else " [origin: " ++ e.origin.render ++ "]"
  "error " ++ actionSeg ++ " " ++ paramSeg ++ "`" ++ e.config.ty_name ++
    "` at `" ++ e.path ++ "`" ++ originSeg ++ ": " ++ e.inner.message

/-- Spec 4.5, stated from the spec's words: walking every mounted parameter
of the schema once, each parameter whose declared fallback source produces
a value contributes exactly one overlay entry keyed by (canonical prefix,
parameter name), with the source origin wrapped in a synthetic
"fallback for `<Type>.<field>`" origin. -/
def fallbackEntriesSpec (reg : Registry) (σ : ConfigSchema) :
    List ((String × String) × WithOrigin) :=
  σ.iter_ll.flatMap
    (fun pc =>
      ((reg pc.2.ty).params).filterMap
        (fun param =>
          param.fallback.bind
            (fun fb =>
              fb.provide_value.map
                (fun val => ((pc.1, param.name), fallbackWrap (reg pc.2.ty) param val)))))

/-- Schemas reachable from the empty schema through the public
schema-construction operations: `insert`, `push_alias` /
`push_deprecated_alias` (via `push_alias_inner`) and the
`coerce_serde_enums` toggle. -/
inductive Reachable (reg : Registry) : ConfigSchema → Prop where
  | empty : Reachable reg ConfigSchema.empty
  | coerce (σ : ConfigSchema) (b : Bool) :
      Reachable reg σ → Reachable reg (σ.set_coerce b)
  | insert_ok (σ σ' : ConfigSchema) (fuel : Nat) (ty : TypeId) (pfx : String) :
      Reachable reg σ → ConfigSchema.insert reg fuel σ ty pfx = (.ok (), σ') →
      Reachable reg σ'
  | alias_ok (σ σ' : ConfigSchema) (fuel : Nat) (pfx : String) (ty : TypeId)
      (al : String) (options : AliasOptions) :
      Reachable reg σ →
      push_alias_inner reg fuel σ pfx ty al options = (.ok (), σ') →
      Reachable reg σ'

/-- Per-entry invariant of a committed schema: every stored `ConfigData`
has a nonempty path list whose first element is the canonical prefix under
which it is keyed, carries the type id under which it is keyed, and all its
nested configs are registered at their canonical child prefixes. -/
def EntryProp (reg : Registry) (σ : ConfigSchema) : Prop :=
  ∀ k t d, σ.get_ll k t = some d →
    d.all_paths ≠ [] ∧ d.pfx = some k ∧ d.ty = t ∧
    ∀ n ∈ (reg d.ty).nested_configs,
      (σ.get_ll (Ptr.join k n.name) n.child_ty).isSome

/-- Bookkeeping invariant: the association lists of the registry have
pairwise distinct keys (they model `BTreeMap` / `HashMap`). -/
def NodupInv (σ : ConfigSchema) : Prop :=
  alNodup σ.configs ∧ ∀ k cf, alGet σ.configs k = some cf → alNodup cf.inner

/-- Invariant of a pending worklist item: either its path list is nonempty
with the item's key first, or the base already registers this (key, type)
with the key as canonical prefix (the alias-push case, where the pending
paths are merged behind the base entry's paths). -/
def ItemOk (base : ConfigSchema) (it : String × ConfigData × Option Nat) : Prop :=
  it.2.1.all_paths ≠ [] ∧
  (it.2.1.pfx = some it.1 ∨
    ∃ pd, base.get_ll it.1 it.2.1.ty = some pd ∧ pd.all_paths ≠ [] ∧
      pd.pfx = some it.1)

/-- Mid-run invariant of the staged patch: every staged entry is
well-formed, and each of its nested configs is either already staged,
already in the base, or still scheduled on the worklist. -/
def PatchProp (reg : Registry) (base patchσ : ConfigSchema)
    (items : List (String × ConfigData × Option Nat)) : Prop :=
  ∀ k t d, patchσ.get_ll k t = some d →
    d.all_paths ≠ [] ∧ d.pfx = some k ∧ d.ty = t ∧
    ∀ n ∈ (reg d.ty).nested_configs,
      (patchσ.get_ll (Ptr.join k n.name) n.child_ty).isSome ∨
      (base.get_ll (Ptr.join k n.name) n.child_ty).isSome ∨
      ∃ it ∈ items, it.1 = Ptr.join k n.name ∧ it.2.1.ty = n.child_ty

/-- Nodup bookkeeping for the staged patch. -/
def PatchNodup (patchσ : ConfigSchema) : Prop :=
  alNodup patchσ.configs ∧
  ∀ k cf, alGet patchσ.configs k = some cf → alNodup cf.inner

/-- One expected basic type (bit 0). -/
def bt1 : BasicTypes := ⟨1, by decide⟩

/-- Another expected basic type, disjoint from `bt1` (bit 1). -/
def bt2 : BasicTypes := ⟨2, by decide⟩

/-- Example param `p` with simple alias `q`. -/
def paramP : ParamMetadata := ⟨"p", "p", [("q", AliasOptions.new)], bt1, none, none⟩

/-- Example param `q` without aliases, expecting the same types as `paramP`. -/
def paramQ : ParamMetadata := ⟨"q", "q", [], bt1, none, none⟩

/-- Example param `q2` expecting types disjoint from `paramP`'s. -/
def paramQ2 : ParamMetadata := ⟨"q2", "q2", [], bt2, none, none⟩

/-- Example config type `A` (id 1) with the single param `paramP`. -/
def metaA : ConfigMeta := ⟨"A", [paramP], []⟩

/-- Example config type `B` (id 2) with the single param `paramQ`. -/
def metaB : ConfigMeta := ⟨"B", [paramQ], []⟩

/-- Example param with a fallback source providing an env value. -/
def paramF : ParamMetadata :=
  ⟨"f", "fld", [], bt1, none, some ⟨some ⟨Value.str "v", ValueOrigin.env_vars⟩⟩⟩

/-- Example config type `F` (id 3) with the fallback param. -/
def metaF : ConfigMeta := ⟨"F", [paramF], []⟩

/-- Example metadata registry. -/
def regEx : Registry := fun t =>
  if t = 1 then metaA
  else if t = 2 then metaB
  else if t = 3 then metaF
  else ⟨"Empty", [], []⟩

/-- First example insertion: config `A` at prefix `a`. -/
def exRun1 : Except String Unit × ConfigSchema :=
  ConfigSchema.insert regEx 10 ConfigSchema.empty 1 "a"

/-- The schema after the first example insertion. -/
def exSchema1 : ConfigSchema := exRun1.2

/-- Second example insertion: config `B` at the same prefix `a`; its param
`q` lands at `a.q`, a path already mounted non-canonically by `A`. -/
def exRun2 : Except String Unit × ConfigSchema :=
  ConfigSchema.insert regEx 10 exSchema1 2 "a"

/-- The schema after the second example insertion. -/
def exSchema2 : ConfigSchema := exRun2.2

/-- The registration record of config `A` at prefix `a`. -/
def dataA : ConfigData := ⟨1, none, true, false, [("a", AliasOptions.new)]⟩

/-- Example config data with enum coercion enabled, mounted at `root`. -/
def dataCo : ConfigData := ⟨5, none, true, true, [("root", AliasOptions.new)]⟩

/-- Example tag variant `Foo` with alias `Bar`. -/
def varFoo : ConfigVariant := ⟨"Foo", ["Bar"]⟩

/-- Example insertion of the fallback config `F` at prefix `svc`. -/
def exRunF : Except String Unit × ConfigSchema :=
  ConfigSchema.insert regEx 10 ConfigSchema.empty 3 "svc"

/-- The schema holding the fallback config. -/
def exSchemaF : ConfigSchema := exRunF.2

/-- Example generic parse error. -/
def exErr : ParseError :=
  ⟨⟨"boom"⟩, .generic, "p", .unknown, metaA, none, none⟩

/-- Example `ServerConfig` metadata with the single param `port`. -/
def metaServer : ConfigMeta := ⟨"ServerConfig", [⟨"port", "port", [], bt1, none, none⟩], []⟩

/-- Example missing-required-field error on param `port` of `ServerConfig`
at path `server.port`, with unknown origin. -/
def exPE : ParseError :=
  ⟨JsonError.missing_field "port", .missingField, "server.port", .unknown,
    metaServer, some (.param 0), none⟩

theorem alGet_alInsert_self {κ α : Type} [DecidableEq κ] (l : List (κ × α))
    (k : κ) (v : α) : alGet (alInsert l k v) k = some v := by
  induction l with
  | nil => simp [alInsert, alGet]
  | cons p rest ih =>
    obtain ⟨k', v'⟩ := p
    by_cases h : k' = k
    · simp [alInsert, h, alGet]
    · simp [alInsert, h, alGet, ih]

theorem alGet_alInsert_ne {κ α : Type} [DecidableEq κ] (l : List (κ × α))
    (k k' : κ) (v : α) (h : k' ≠ k) :
    alGet (alInsert l k v) k' = alGet l k' := by
  induction l with
  | nil => simp [alInsert, alGet, Ne.symm h]
  | cons p rest ih =>
    obtain ⟨k0, v0⟩ := p
    by_cases h0 : k0 = k
    · subst h0
      simp [alInsert, alGet, Ne.symm h]
    · simp [alInsert, if_neg h0, alGet, ih]

theorem alGet_alInsert_isSome {κ α : Type} [DecidableEq κ] (l : List (κ × α))
    (k k' : κ) (v : α) (h : (alGet l k').isSome) :
    (alGet (alInsert l k v) k').isSome := by
  by_cases hk : k' = k
  · subst hk
    simp [alGet_alInsert_self]
  · rwa [alGet_alInsert_ne _ _ _ _ hk]

theorem alInsert_map_fst {κ α : Type} [DecidableEq κ] (l : List (κ × α))
    (k : κ) (v : α) :
    (alInsert l k v).map Prod.fst =
      if k ∈ l.map Prod.fst then l.map Prod.fst else l.map Prod.fst ++ [k] := by
  induction l with
  | nil => simp [alInsert]
  | cons p rest ih =>
    obtain ⟨k0, v0⟩ := p
    by_cases h0 : k0 = k
    · subst h0
      simp [alInsert]
    · have hne : ¬k = k0 := fun h => h0 h.symm
      simp only [alInsert, if_neg h0, List.map_cons, List.mem_cons, ih]
      by_cases hm : k ∈ rest.map Prod.fst
      · simp [hm, hne]
      · simp [hm, hne]

theorem alNodup_alInsert {κ α : Type} [DecidableEq κ] (l : List (κ × α))
    (k : κ) (v : α) (h : alNodup l) : alNodup (alInsert l k v) := by
  unfold alNodup at h ⊢
  rw [alInsert_map_fst]
  by_cases hm : k ∈ l.map Prod.fst
  · simpa [hm] using h
  · simp only [hm, if_false]
    exact List.Nodup.append h (List.nodup_singleton k)
      (by simpa [List.disjoint_singleton] using hm)

theorem alGet_eq_none_iff {κ α : Type} [DecidableEq κ] (l : List (κ × α))
    (k : κ) : alGet l k = none ↔ k ∉ l.map Prod.fst := by
  induction l with
  | nil => simp [alGet]
  | cons p rest ih =>
    obtain ⟨k0, v0⟩ := p
    by_cases h0 : k0 = k
    · subst h0
      simp [alGet]
    · simp [alGet, h0, ih, Ne.symm h0]

theorem alInsert_of_get_none {κ α : Type} [DecidableEq κ] (l : List (κ × α))
    (k : κ) (v : α) (h : alGet l k = none) : alInsert l k v = l ++ [(k, v)] := by
  induction l with
  | nil => simp [alInsert]
  | cons p rest ih =>
    obtain ⟨k0, v0⟩ := p
    by_cases h0 : k0 = k
    · subst h0
      simp [alGet] at h
    · simp only [alGet, if_neg h0] at h
      simp [alInsert, h0, ih h]

theorem alGet_foldlMerge {κ α β : Type} [DecidableEq κ] (f : α → β → α)
    (d : α) (l : List (κ × β)) (acc : List (κ × α)) (k : κ) (h : alNodup l) :
    alGet (l.foldl (fun a p => alInsert a p.1 (f (alGetD a p.1 d) p.2)) acc) k =
      match alGet l k with
      | some v => some (f (alGetD acc k d) v)
      | none => alGet acc k := by
  induction l generalizing acc with
  | nil => simp [alGet]
  | cons p rest ih =>
    obtain ⟨k0, v0⟩ := p
    simp only [alNodup, List.map_cons, List.nodup_cons] at h
    have hrest : alNodup rest := h.2
    simp only [List.foldl_cons]
    rw [ih _ hrest]
    by_cases hk : k0 = k
    · subst hk
      have hnone : alGet rest k0 = none := (alGet_eq_none_iff rest k0).mpr h.1
      simp [alGet, hnone, alGetD, alGet_alInsert_self]
    · have h1 : ∀ w, alGet (alInsert acc k0 w) k = alGet acc k := fun w =>
        alGet_alInsert_ne _ _ _ _ (Ne.symm hk)
      simp only [alGet, if_neg hk, alGetD, h1]

theorem alGet_foldl_insert {κ α : Type} [DecidableEq κ] (l : List (κ × α))
    (acc : List (κ × α)) (k : κ) (h : alNodup l) :
    alGet (l.foldl (fun a p => alInsert a p.1 p.2) acc) k =
      match alGet l k with
      | some v => some v
      | none => alGet acc k := by
  induction l generalizing acc with
  | nil => simp [alGet]
  | cons p rest ih =>
    obtain ⟨k0, v0⟩ := p
    simp only [alNodup, List.map_cons, List.nodup_cons] at h
    simp only [List.foldl_cons]
    rw [ih _ h.2]
    by_cases hk : k0 = k
    · subst hk
      have hnone : alGet rest k0 = none := (alGet_eq_none_iff rest k0).mpr h.1
      simp [alGet, hnone, alGet_alInsert_self]
    · have h1 : alGet (alInsert acc k0 v0) k = alGet acc k :=
        alGet_alInsert_ne _ _ _ _ (Ne.symm hk)
      simp only [alGet, if_neg hk, h1]

/-- C8: collecting an iterator of `ParseError` values into
`Result<(), ParseErrors>` yields `Ok(())` when the iterator is empty and
`Err(ParseErrors)` otherwise; a `ParseErrors` built from N > 0 errors
preserves encounter order without deduplication, `len()` returns N,
`first()` returns the first collected error, and a `ParseErrors` value
handed to the caller is never empty by construction. -/
theorem c8_collect_parse_errors (l : List ParseError) :
    (l = [] → collectParseResults l = .ok ()) ∧
    (l ≠ [] →
      collectParseResults l = .error ⟨l⟩ ∧
      (ParseErrors.mk l).len = l.length ∧
      (ParseErrors.mk l).first? = l.head?) ∧
    (∀ es, collectParseResults l = .error es → es.errors ≠ []) := by
  refine ⟨?_, ?_, ?_⟩
  · intro h
    simp [collectParseResults, h]
  · intro h
    refine ⟨?_, rfl, rfl⟩
    simp [collectParseResults, h]
  · intro es h
    by_cases he : l = []
    · simp [collectParseResults, he] at h
    · simp only [collectParseResults, List.isEmpty_iff, if_neg he] at h
      cases h
      exact he

/-- C8 witness: collecting one error produces the singleton collection with
accurate length and first element, while collecting zero errors succeeds. -/
theorem c8_collect_parse_errors_witness :
    collectParseResults ([] : List ParseError) = .ok () ∧
    collectParseResults [exErr] = .error ⟨[exErr]⟩ ∧
    (ParseErrors.mk [exErr]).len = 1 ∧
    (ParseErrors.mk [exErr]).first? = some exErr := by
  refine ⟨(c8_collect_parse_errors []).1 rfl, ?_⟩
  have h := (c8_collect_parse_errors [exErr]).2.1 (List.cons_ne_nil _ _)
  exact ⟨h.1, h.2.1, h.2.2⟩

/-- C9 counterexample: the missing-required-field error on param `port` of
`ServerConfig` at `server.port` renders with the parameter name in
backquotes; the rendered message does not contain the double-quoted
`param "port"` stated by the claim. -/
theorem c9_render_quoted_param_cex :
    ParseError.render exPE =
      "error parsing param `port` in `ServerConfig` at `server.port`: missing field `port`" ∧
    containsSub (ParseError.render exPE) "param \"port\"" = false :=
  ⟨rfl, rfl⟩

/-- C9 (amended): the rendering of a `ParseError` composes the optional
"param `<name>` in " segment, the action, the config's declared name, the
path, the origin (omitted entirely when the origin is unknown) and the
underlying cause; the example missing-field error renders a message
containing ``param `port` `` (backquoted), `ServerConfig` and
`server.port`. -/
theorem c9_render_composition :
    (∀ e : ParseError, e.render = renderSpec e) ∧
    containsSub (ParseError.render exPE) "param `port`" = true ∧
    containsSub (ParseError.render exPE) "ServerConfig" = true ∧
    containsSub (ParseError.render exPE) "server.port" = true := by
  refine ⟨?_, rfl, rfl, rfl⟩
  intro e
  obtain ⟨inner, cat, path, origin, config, loc, val⟩ := e
  cases loc with
  | none => cases origin <;> cases val <;> rfl
  | some lc =>
    cases lc with
    | param idx =>
      cases hg : config.params.get? idx <;> cases origin <;> cases val <;>
        simp [ParseError.render, renderSpec, ParseError.param?, hg]

theorem filterMap_combine_comm (a : String × AliasOptions)
    (locals : List (String × AliasOptions)) :
    locals.filterMap
        (fun no => (Ptr.joinPath a.1 no.1).map (fun fp => (fp, no.2.combine a.2))) =
      locals.filterMap
        (fun no =>
          (Ptr.joinPath a.1 no.1).map
            (fun fp => (fp, ⟨a.2.is_deprecated || no.2.is_deprecated⟩))) := by
  induction locals with
  | nil => rfl
  | cons n rest ih =>
    simp only [List.filterMap_cons]
    cases hj : Ptr.joinPath a.1 n.1 with
    | none => simp [ih]
    | some j => simp [ih, AliasOptions.combine, Bool.or_comm]

theorem cartesian_eq (parents locals : List (String × AliasOptions)) :
    parents.flatMap
        (fun ac =>
          locals.filterMap
            (fun no =>
              (Ptr.joinPath ac.1 no.1).map (fun fp => (fp, no.2.combine ac.2)))) =
      cartesianSpec parents locals := by
  unfold cartesianSpec
  induction parents with
  | nil => rfl
  | cons p rest ih =>
    simp only [List.flatMap_cons, ih, filterMap_combine_comm]

theorem flatMap_filterMap {α β γ : Type} (f : α → Option β) (g : β → List γ)
    (l : List α) :
    (l.filterMap f).flatMap g =
      l.flatMap (fun x => match f x with | none => [] | some y => g y) := by
  induction l with
  | nil => rfl
  | cons x rest ih =>
    cases hf : f x with
    | none => simp [List.filterMap_cons, hf, ih]
    | some y => simp [List.filterMap_cons, hf, ih]

theorem flatMap_fun_congr {α β : Type} (l : List α) (f g : α → List β)
    (h : ∀ x ∈ l, f x = g x) : l.flatMap f = l.flatMap g := by
  induction l with
  | nil => rfl
  | cons x rest ih =>
    simp only [List.flatMap_cons, h x (List.mem_cons_self x rest)]
    rw [ih fun y hy => h y (List.mem_cons_of_mem x hy)]

theorem enumNames_eq_enumSpec (name : String)
    (aliases : List (String × AliasOptions)) (v : ConfigVariant) :
    enumNames true name aliases (some v) = enumSpec v (localNames name aliases) := by
  simp only [enumNames, enumSpec]
  rw [flatMap_filterMap]
  apply flatMap_fun_congr
  intro nm _
  cases hn : EnumVariant.new nm with
  | none => simp [hn]
  | some valid => simp [hn]

/-- C4: without enum-tag coercion, the generated absolute-path set of a
child is exactly the Cartesian combination parent path × local
name-or-alias, with parent paths as the outer iteration and local names as
the inner iteration, and each resulting entry deprecated iff the parent
path entry or the local alias is deprecated (this is `cartesianSpec`,
stated from the spec's words). -/
theorem c4_child_paths_cartesian (data : ConfigData) (name : String)
    (aliases : List (String × AliasOptions)) (tag : Option ConfigVariant)
    (h : data.coerce_serde_enums = false ∨ tag = none) :
    data.all_paths_for_child name aliases tag =
      cartesianSpec data.all_paths (localNames name aliases) := by
  have he : enumNames data.coerce_serde_enums name aliases tag = [] := by
    cases h with
    | inl h => rw [h]; cases tag <;> rfl
    | inr h => rw [h]; cases hc : data.coerce_serde_enums <;> rfl
  simp only [ConfigData.all_paths_for_child, he, List.append_nil]
  exact cartesian_eq _ _

/-- C4 witness: param `p` with alias `q` of the config mounted at `a`
expands to exactly `a.p` and `a.q`, in that order. -/
theorem c4_child_paths_cartesian_witness :
    (dataA.coerce_serde_enums = false ∨ (none : Option ConfigVariant) = none) ∧
    dataA.all_paths_for_child "p" [("q", AliasOptions.new)] none =
      [("a.p", AliasOptions.new), ("a.q", AliasOptions.new)] :=
  ⟨Or.inl rfl,
    (c4_child_paths_cartesian dataA "p" [("q", AliasOptions.new)] none
      (Or.inl rfl)).trans rfl⟩

/-- C5: with enum-tag coercion enabled and a tag variant present, the
generated paths are the Cartesian combination of the parent paths with the
local names followed by the synthetic enum-tag names — one per variant name
(tag name first, then tag aliases) that case-folds to a valid path segment,
combined with every simple (non-path) local name (this is `enumSpec`,
stated from the spec's words). -/
theorem c5_enum_coercion_paths (data : ConfigData) (name : String)
    (aliases : List (String × AliasOptions)) (v : ConfigVariant)
    (h : data.coerce_serde_enums = true) :
    data.all_paths_for_child name aliases (some v) =
      cartesianSpec data.all_paths
        (localNames name aliases ++ enumSpec v (localNames name aliases)) := by
  simp only [ConfigData.all_paths_for_child, h, enumNames_eq_enumSpec]
  exact cartesian_eq _ _

/-- C5 witness: tag `Foo` (alias `Bar`) with param `baz` (alias `qux`)
under prefix `root` yields `root.foo.baz`, `root.foo.qux`, `root.bar.baz`,
`root.bar.qux` in addition to the natural paths `root.baz`, `root.qux`. -/
theorem c5_enum_coercion_paths_witness :
    dataCo.coerce_serde_enums = true ∧
    dataCo.all_paths_for_child "baz" [("qux", AliasOptions.new)] (some varFoo) =
      [("root.baz", AliasOptions.new), ("root.qux", AliasOptions.new),
        ("root.foo.baz", AliasOptions.new), ("root.foo.qux", AliasOptions.new),
        ("root.bar.baz", AliasOptions.new), ("root.bar.qux", AliasOptions.new)] :=
  ⟨rfl,
    (c5_enum_coercion_paths dataCo "baz" [("qux", AliasOptions.new)] varFoo
      rfl).trans rfl⟩

theorem nat_land_self (n : Nat) : n &&& n = n := by
  apply Nat.eq_of_testBit_eq
  intro i
  simp [Nat.testBit_land]

theorem BasicTypes.disjoint_ne (a b : BasicTypes) (h : a.Disjoint b) : a ≠ b := by
  intro he
  subst he
  rw [BasicTypes.Disjoint, nat_land_self] at h
  exact a.2 h

/-- C2 counterexample: config `A` (param `p` with alias `q`) is mounted at
`a`, leaving a non-canonical param mount at `a.q`; inserting config `B`
(param `q`, equal type set) at `a` succeeds, but flips the existing mount
at `a.q` from non-canonical to canonical instead of preserving its flag —
a later same-path registration became canonical. -/
theorem c2_canonical_flag_cex :
    exRun2.1 = .ok () ∧
    alGet exSchema1.mounting_points "a.q" = some (.param bt1 false) ∧
    alGet exSchema2.mounting_points "a.q" = some (.param bt1 true) :=
  ⟨rfl, rfl, rfl⟩

/-- C2 (amended): inserting a parameter at a path already holding a
parameter mount fails (leaving the staged schema untouched) when the
expected-type sets are disjoint, and succeeds when they are equal; the
resulting mount's canonical flag is the OR of the existing flag and whether
this path is the new parameter's first (highest-priority) path — an
existing canonical mount stays canonical, but a previously non-canonical
path becomes canonical when re-registered as a later parameter's primary
path. -/
theorem c2_param_remount_amended (ps : PatchedSchema) (param : ParamMetadata)
    (cfg_name full_name : String) (i : Nat) (pe : BasicTypes) (wc : Bool)
    (h : ps.mountGet full_name = some (.param pe wc)) :
    (pe.Disjoint param.expecting →
      ∃ e, mountParamPath ps param cfg_name full_name i = .error e ps) ∧
    (pe = param.expecting →
      mountParamPath ps param cfg_name full_name i =
        .ok (ps.mountInsert full_name (.param param.expecting (wc || i == 0)))) := by
  constructor
  · intro hd
    have hne : pe ≠ param.expecting := BasicTypes.disjoint_ne _ _ hd
    simp only [mountParamPath, h]
    rw [if_pos hne]
    exact ⟨_, rfl⟩
  · intro he
    subst he
    simp only [mountParamPath, h]
    rw [if_neg (by simp)]

/-- C2 witness for the amended claim: at `a.q` (mounted non-canonically
with type set `bt1`), inserting a param expecting the disjoint set `bt2`
errors with the state untouched, while inserting a param expecting `bt1` as
its primary path succeeds and mounts `a.q` canonically. -/
theorem c2_param_remount_amended_witness :
    (∃ e, mountParamPath ⟨exSchema1, ConfigSchema.empty⟩ paramQ2 "B" "a.q" 0 =
      .error e ⟨exSchema1, ConfigSchema.empty⟩) ∧
    mountParamPath ⟨exSchema1, ConfigSchema.empty⟩ paramQ "B" "a.q" 0 =
      .ok ((⟨exSchema1, ConfigSchema.empty⟩ : PatchedSchema).mountInsert "a.q"
        (.param bt1 true)) := by
  constructor
  · exact (c2_param_remount_amended ⟨exSchema1, ConfigSchema.empty⟩ paramQ2 "B"
      "a.q" 0 bt1 false rfl).1 (by decide)
  · exact (c2_param_remount_amended ⟨exSchema1, ConfigSchema.empty⟩ paramQ "B"
      "a.q" 0 bt1 false rfl).2 rfl

theorem foldl_fun_congr {α β : Type} (l : List α) (f g : β → α → β) (b : β)
    (h : ∀ acc x, f acc x = g acc x) : l.foldl f b = l.foldl g b := by
  induction l generalizing b with
  | nil => rfl
  | cons x rest ih => simp only [List.foldl_cons, h, ih]

theorem foldl_flatMap {α β γ : Type} (l : List α) (F : α → List β)
    (ins : γ → β → γ) (acc : γ) :
    (l.flatMap F).foldl ins acc = l.foldl (fun a x => (F x).foldl ins a) acc := by
  induction l generalizing acc with
  | nil => rfl
  | cons x rest ih =>
    simp only [List.flatMap_cons, List.foldl_append, List.foldl_cons, ih]

theorem fold_filterMap_insert {κ α β : Type} [DecidableEq κ] (l : List β)
    (h : β → Option (κ × α)) (acc : List (κ × α)) :
    l.foldl
        (fun a x =>
          match h x with
          | none => a
          | some p => alInsert a p.1 p.2) acc =
      (l.filterMap h).foldl (fun a p => alInsert a p.1 p.2) acc := by
  induction l generalizing acc with
  | nil => rfl
  | cons x rest ih =>
    cases hx : h x with
    | none => simp [List.filterMap_cons, hx, ih]
    | some p => simp [List.filterMap_cons, hx, ih]

theorem alGet_append {κ α : Type} [DecidableEq κ] (l1 l2 : List (κ × α))
    (k : κ) :
    alGet (l1 ++ l2) k =
      match alGet l1 k with
      | some v => some v
      | none => alGet l2 k := by
  induction l1 with
  | nil => simp [alGet]
  | cons p rest ih =>
    obtain ⟨k0, v0⟩ := p
    by_cases h0 : k0 = k
    · simp [alGet, h0]
    · simp [alGet, h0, ih]

theorem foldl_insert_fresh {κ α : Type} [DecidableEq κ] (l acc : List (κ × α))
    (hnd : alNodup l) (hfresh : ∀ p ∈ l, alGet acc p.1 = none) :
    l.foldl (fun a p => alInsert a p.1 p.2) acc = acc ++ l := by
  induction l generalizing acc with
  | nil => simp
  | cons p rest ih =>
    obtain ⟨k, v⟩ := p
    simp only [alNodup, List.map_cons, List.nodup_cons] at hnd
    have hacc : alGet acc k = none := hfresh (k, v) (List.mem_cons_self _ _)
    simp only [List.foldl_cons]
    rw [alInsert_of_get_none _ _ _ hacc]
    have hfresh' : ∀ q ∈ rest, alGet (acc ++ [(k, v)]) q.1 = none := by
      intro q hq
      rw [alGet_append]
      have hne : q.1 ≠ k := by
        intro he
        exact hnd.1 (he ▸ (List.mem_map_of_mem Prod.fst hq))
      have h0 : alGet acc q.1 = none := hfresh q (List.mem_cons_of_mem _ hq)
      simp only [h0]
      simp [alGet, Ne.symm hne]
    rw [ih (acc ++ [(k, v)]) hnd.2 hfresh']
    simp

/-- C7: `Fallbacks::new` walks every mounted parameter of the committed
schema exactly once; when the generated (prefix, name) keys are pairwise
distinct, every parameter whose fallback source returns a value contributes
exactly one overlay entry with the synthetic "fallback for
`<Type>.<field>`" origin (this is `fallbackEntriesSpec`, stated from the
spec's words), and when no parameter produced a value the function returns
`None` rather than an empty overlay. -/
theorem c7_fallbacks_overlay (reg : Registry) (σ : ConfigSchema)
    (h : alNodup (fallbackEntriesSpec reg σ)) :
    (fallbackEntriesSpec reg σ = [] → Fallbacks.new reg σ = none) ∧
    (fallbackEntriesSpec reg σ ≠ [] →
      Fallbacks.new reg σ = some ⟨fallbackEntriesSpec reg σ, .fallbacks⟩) := by
  have hstep : ∀ (acc : List ((String × String) × WithOrigin))
      (pc : String × ConfigData),
      ((reg pc.2.ty).params).foldl
          (fun acc param =>
            match param.fallback with
            | none => acc
            | some fb =>
              match fb.provide_value with
              | none => acc
              | some val =>
                alInsert acc (pc.1, param.name)
                  (fallbackWrap (reg pc.2.ty) param val)) acc =
        (((reg pc.2.ty).params).filterMap
            (fun param =>
              param.fallback.bind
                (fun fb =>
                  fb.provide_value.map
                    (fun val =>
                      ((pc.1, param.name),
                        fallbackWrap (reg pc.2.ty) param val))))).foldl
          (fun a p => alInsert a p.1 p.2) acc := by
    intro acc pc
    rw [← fold_filterMap_insert]
    apply foldl_fun_congr
    intro a param
    obtain ⟨pname, rfn, als, expv, tv, fbo⟩ := param
    cases fbo with
    | none => rfl
    | some fb =>
      obtain ⟨pv⟩ := fb
      cases pv <;> rfl
  have hinner :
      (σ.iter_ll.foldl
        (fun acc pc =>
          ((reg pc.2.ty).params).foldl
            (fun acc param =>
              match param.fallback with
              | none => acc
              | some fb =>
                match fb.provide_value with
                | none => acc
                | some val =>
                  alInsert acc (pc.1, param.name)
                    (fallbackWrap (reg pc.2.ty) param val)) acc) []) =
        fallbackEntriesSpec reg σ := by
    rw [foldl_fun_congr _ _ _ _ hstep, ← foldl_flatMap]
    show (fallbackEntriesSpec reg σ).foldl (fun a p => alInsert a p.1 p.2) [] =
      fallbackEntriesSpec reg σ
    rw [foldl_insert_fresh (fallbackEntriesSpec reg σ) [] h (fun p _ => rfl)]
    simp
  have hnew : Fallbacks.new reg σ =
      (if (fallbackEntriesSpec reg σ).isEmpty then none
        else some ⟨fallbackEntriesSpec reg σ, .fallbacks⟩) := by
    simp only [Fallbacks.new]
    rw [hinner]
  constructor
  · intro he
    rw [hnew, he]
    rfl
  · intro he
    rw [hnew]
    simp [List.isEmpty_iff, he]

/-- C7 witness: in the schema holding config `F` at `svc` whose param has a
providing fallback source, the overlay is present and holds exactly the one
entry keyed `(svc, f)` with the synthetic wrapped origin; the entry list is
nonempty. -/
theorem c7_fallbacks_overlay_witness :
    fallbackEntriesSpec regEx exSchemaF ≠ [] ∧
    Fallbacks.new regEx exSchemaF =
      some ⟨fallbackEntriesSpec regEx exSchemaF, .fallbacks⟩ :=
  ⟨by decide, (c7_fallbacks_overlay regEx exSchemaF (by decide)).2 (by decide)⟩

theorem mountConfigPaths_state (cfg_name : String)
    (paths : List String) (ps : PatchedSchema) :
    (mountConfigPaths cfg_name paths ps).state.base = ps.base ∧
    (mountConfigPaths cfg_name paths ps).state.patch.configs =
      ps.patch.configs := by
  induction paths generalizing ps with
  | nil => exact ⟨rfl, rfl⟩
  | cons p rest ih =>
    simp only [mountConfigPaths]
    cases hm : ps.mountGet p with
    | none => exact ⟨(ih _).1, (ih _).2⟩
    | some m =>
      cases m with
      | config => exact ⟨(ih _).1, (ih _).2⟩
      | param e c => exact ⟨rfl, rfl⟩

theorem mountParamPath_state (ps : PatchedSchema) (param : ParamMetadata)
    (cfg_name full_name : String) (i : Nat) :
    (mountParamPath ps param cfg_name full_name i).state.base = ps.base ∧
    (mountParamPath ps param cfg_name full_name i).state.patch.configs =
      ps.patch.configs := by
  refine ⟨?_, ?_⟩ <;>
    · unfold mountParamPath
      split
      · rfl
      · split
        · rfl
        · rfl
      · rfl

theorem mountParamPaths_state (param : ParamMetadata) (cfg_name : String)
    (paths : List (String × AliasOptions)) (i : Nat) (ps : PatchedSchema) :
    (mountParamPaths param cfg_name paths i ps).state.base = ps.base ∧
    (mountParamPaths param cfg_name paths i ps).state.patch.configs =
      ps.patch.configs := by
  induction paths generalizing i ps with
  | nil => exact ⟨rfl, rfl⟩
  | cons p rest ih =>
    simp only [mountParamPaths]
    cases hr : mountParamPath ps param cfg_name p.1 i with
    | error e ps' =>
      have h0 := mountParamPath_state ps param cfg_name p.1 i
      rw [hr] at h0
      exact h0
    | ok ps' =>
      have h0 := mountParamPath_state ps param cfg_name p.1 i
      rw [hr] at h0
      obtain ⟨hb, hc⟩ := h0
      exact ⟨((ih (i + 1) ps').1).trans hb, ((ih (i + 1) ps').2).trans hc⟩

theorem mountParams_state (cfg_name : String) (data : ConfigData)
    (params : List ParamMetadata) (ps : PatchedSchema) :
    (mountParams cfg_name data params ps).state.base = ps.base ∧
    (mountParams cfg_name data params ps).state.patch.configs =
      ps.patch.configs := by
  induction params generalizing ps with
  | nil => exact ⟨rfl, rfl⟩
  | cons param rest ih =>
    simp only [mountParams]
    cases hr : mountParamPaths param cfg_name (data.all_paths_for_param param) 0 ps with
    | error e ps' =>
      have h0 := mountParamPaths_state param cfg_name
        (data.all_paths_for_param param) 0 ps
      rw [hr] at h0
      exact h0
    | ok ps' =>
      have h0 := mountParamPaths_state param cfg_name
        (data.all_paths_for_param param) 0 ps
      rw [hr] at h0
      exact ⟨((ih ps').1).trans h0.1, ((ih ps').2).trans h0.2⟩

theorem insert_inner_base (reg : Registry) (pfx : String) (depth : Option Nat)
    (data : ConfigData) (ps : PatchedSchema) :
    (insert_inner reg pfx depth data ps).state.base = ps.base := by
  simp only [insert_inner]
  split
  · rename_i e ps0 hc
    have h0 := mountConfigPaths_state (reg data.ty).ty_name
      (pfx :: data.all_paths.map Prod.fst) ps
    rw [hc] at h0
    exact h0.1
  · rename_i ps1 hc
    have h0 := mountConfigPaths_state (reg data.ty).ty_name
      (pfx :: data.all_paths.map Prod.fst) ps
    rw [hc] at h0
    split
    · rename_i e ps0 hp
      have h1 := mountParams_state (reg data.ty).ty_name data (reg data.ty).params ps1
      rw [hp] at h1
      exact h1.1.trans h0.1
    · rename_i ps2 hp
      have h1 := mountParams_state (reg data.ty).ty_name data (reg data.ty).params ps1
      rw [hp] at h1
      exact h1.1.trans h0.1

/-- `insert_inner` in the successful case: the base is untouched and the
staged registry gains exactly the merged registration of this config under
its worklist prefix and type id. -/
theorem insert_inner_ok (reg : Registry) (pfx : String) (depth : Option Nat)
    (data : ConfigData) (ps ps' : PatchedSchema)
    (h : insert_inner reg pfx depth data ps = .ok ps') :
    ps'.base = ps.base ∧
    ps'.patch.configs =
      alInsert ps.patch.configs pfx
        ((alGetD ps.patch.configs pfx ConfigsForPrefix.empty).insertC data.ty
          depth (mergeData ps.base pfx data)) := by
  simp only [insert_inner] at h
  split at h
  · cases h
  · rename_i ps1 hc
    have h0 := mountConfigPaths_state (reg data.ty).ty_name
      (pfx :: data.all_paths.map Prod.fst) ps
    rw [hc] at h0
    split at h
    · cases h
    · rename_i ps2 hp
      have h1 := mountParams_state (reg data.ty).ty_name data (reg data.ty).params ps1
      rw [hp] at h1
      cases h
      simp only [OpRes.state] at h0 h1
      refine ⟨h1.1.trans h0.1, ?_⟩
      simp only [patchConfigsInsert]
      rw [h1.1.trans h0.1, h1.2.trans h0.2]

theorem processItems_base (reg : Registry) (is_new : Bool) (fuel : Nat)
    (items : List (String × ConfigData × Option Nat)) (ps : PatchedSchema) :
    (processItems reg is_new fuel items ps).state.base = ps.base := by
  induction fuel generalizing items ps with
  | zero => cases items <;> rfl
  | succ n ih =>
    cases items with
    | nil => rfl
    | cons it rest =>
      obtain ⟨pfx, data, depth⟩ := it
      simp only [processItems]
      by_cases hskip : is_new ∧ (ps.base.get_ll pfx data.ty).isSome
      · rw [if_pos hskip]
        exact ih rest ps
      · rw [if_neg hskip]
        cases hr : insert_inner reg pfx depth data ps with
        | error e ps' =>
          have h0 := insert_inner_base reg pfx depth data ps
          rw [hr] at h0
          exact h0
        | ok ps' =>
          have h0 := insert_inner_base reg pfx depth data ps
          rw [hr] at h0
          exact (ih _ ps').trans h0

theorem insert_alias_base (reg : Registry) (fuel : Nat) (ps : PatchedSchema)
    (pfx : String) (ty : TypeId) (al : String) (options : AliasOptions) :
    (insert_alias reg fuel ps pfx ty al options).state.base = ps.base := by
  unfold insert_alias
  split
  · rfl
  · rename_i cd hg
    split
    · rfl
    · exact processItems_base reg false fuel
        [(pfx, { cd with all_paths := [(al, options)] }, none)] ps

/-- C1: whenever a schema-construction operation (`ConfigSchema::insert` or
an alias push via `ConfigMut::push_alias` / `push_deprecated_alias`) fails,
the base schema is returned completely unchanged: no mounting points and no
config entries are added or modified, across all nested insertions of the
batch — staging only ever writes to the patch, which is dropped on
failure. -/
theorem c1_failed_op_leaves_schema_unchanged (reg : Registry) (fuel : Nat)
    (σ : ConfigSchema) (ty : TypeId) (pfx al : String)
    (options : AliasOptions) :
    (isErr (ConfigSchema.insert reg fuel σ ty pfx).1 = true →
      (ConfigSchema.insert reg fuel σ ty pfx).2 = σ) ∧
    (isErr (push_alias_inner reg fuel σ pfx ty al options).1 = true →
      (push_alias_inner reg fuel σ pfx ty al options).2 = σ) := by
  constructor
  · intro hh
    simp only [ConfigSchema.insert] at hh ⊢
    cases hr : processItems reg true fuel
        [(pfx,
          { ty := ty, parent_link := none, is_top_level := true,
            coerce_serde_enums := σ.coerce_serde_enums,
            all_paths := [(pfx, AliasOptions.new)] }, some 0)]
        ⟨σ, ConfigSchema.empty⟩ with
    | ok ps =>
      rw [hr] at hh
      simp [isErr] at hh
    | error e ps =>
      simp only [hr]
      have h0 := processItems_base reg true fuel
        [(pfx,
          { ty := ty, parent_link := none, is_top_level := true,
            coerce_serde_enums := σ.coerce_serde_enums,
            all_paths := [(pfx, AliasOptions.new)] }, some 0)]
        ⟨σ, ConfigSchema.empty⟩
      rw [hr] at h0
      simpa [OpRes.state] using h0
  · intro hh
    simp only [push_alias_inner] at hh ⊢
    cases hr : insert_alias reg fuel ⟨σ, ConfigSchema.empty⟩ pfx ty al options with
    | ok ps =>
      rw [hr] at hh
      simp [isErr] at hh
    | error e ps =>
      simp only [hr]
      have h0 := insert_alias_base reg fuel ⟨σ, ConfigSchema.empty⟩ pfx ty al options
      rw [hr] at h0
      simpa [OpRes.state] using h0

/-- C1 witness: inserting config `B` at `a.p` (an existing param mount)
fails and returns the schema unchanged, as does pushing an alias for an
unregistered config. -/
theorem c1_failed_op_leaves_schema_unchanged_witness :
    (ConfigSchema.insert regEx 10 exSchema1 2 "a.p").2 = exSchema1 ∧
    (push_alias_inner regEx 10 exSchema1 "zzz" 9 "x" AliasOptions.new).2 =
      exSchema1 :=
  ⟨(c1_failed_op_leaves_schema_unchanged regEx 10 exSchema1 2 "a.p" "x"
      AliasOptions.new).1 rfl,
    (c1_failed_op_leaves_schema_unchanged regEx 10 exSchema1 9 "zzz" "x"
      AliasOptions.new).2 rfl⟩

theorem commit_empty (σ : ConfigSchema) :
    PatchedSchema.commit ⟨σ, ConfigSchema.empty⟩ = σ := rfl

theorem commit_configs_get_some (ps : PatchedSchema) (k : String)
    (cf : ConfigsForPrefix) (hnd : alNodup ps.patch.configs)
    (hp : alGet ps.patch.configs k = some cf) :
    alGet ps.commit.configs k =
      some ((alGetD ps.base.configs k ConfigsForPrefix.empty).extendC cf) := by
  have h := alGet_foldlMerge (fun a b => a.extendC b) ConfigsForPrefix.empty
    ps.patch.configs ps.base.configs k hnd
  simp only [hp] at h
  exact h

theorem commit_configs_get_none (ps : PatchedSchema) (k : String)
    (hnd : alNodup ps.patch.configs)
    (hp : alGet ps.patch.configs k = none) :
    alGet ps.commit.configs k = alGet ps.base.configs k := by
  have h := alGet_foldlMerge (fun a b => a.extendC b) ConfigsForPrefix.empty
    ps.patch.configs ps.base.configs k hnd
  simp only [hp] at h
  exact h

theorem extendC_inner_get_some (cf other : ConfigsForPrefix) (t : TypeId)
    (d : ConfigData) (h : alNodup other.inner)
    (hp : alGet other.inner t = some d) :
    alGet (cf.extendC other).inner t = some d := by
  have h0 := alGet_foldl_insert other.inner cf.inner t h
  simp only [hp] at h0
  exact h0

theorem extendC_inner_get_none (cf other : ConfigsForPrefix) (t : TypeId)
    (h : alNodup other.inner) (hp : alGet other.inner t = none) :
    alGet (cf.extendC other).inner t = alGet cf.inner t := by
  have h0 := alGet_foldl_insert other.inner cf.inner t h
  simp only [hp] at h0
  exact h0

theorem get_ll_commit_nopatch (ps : PatchedSchema) (k : String) (t : TypeId)
    (hnd : alNodup ps.patch.configs)
    (hp : alGet ps.patch.configs k = none) :
    ps.commit.get_ll k t = ps.base.get_ll k t := by
  unfold ConfigSchema.get_ll
  rw [commit_configs_get_none ps k hnd hp]

theorem get_ll_commit_patch (ps : PatchedSchema) (k : String) (t : TypeId)
    (cf : ConfigsForPrefix) (hnd : alNodup ps.patch.configs)
    (hcf : alNodup cf.inner) (hp : alGet ps.patch.configs k = some cf) :
    ps.commit.get_ll k t =
      match alGet cf.inner t with
      | some d => some d
      | none => ps.base.get_ll k t := by
  unfold ConfigSchema.get_ll
  rw [commit_configs_get_some ps k cf hnd hp]
  show alGet ((alGetD ps.base.configs k ConfigsForPrefix.empty).extendC cf).inner t = _
  cases hc : alGet cf.inner t with
  | some d => rw [extendC_inner_get_some _ _ _ _ hcf hc]
  | none =>
    rw [extendC_inner_get_none _ _ _ hcf hc]
    unfold alGetD
    cases hb : alGet ps.base.configs k with
    | some cfb => rfl
    | none => rfl

/-- `get_ll` on a staged patch after `patchConfigsInsert`-shaped update:
lookup of the inserted (prefix, type). -/
theorem get_ll_insert_self (patchc : List (String × ConfigsForPrefix))
    (pfx : String) (ty : TypeId) (depth : Option Nat) (d : ConfigData)
    (mp : MountingPoints) (b : Bool) :
    ConfigSchema.get_ll
        ⟨alInsert patchc pfx
          ((alGetD patchc pfx ConfigsForPrefix.empty).insertC ty depth d),
          mp, b⟩ pfx ty = some d := by
  unfold ConfigSchema.get_ll
  rw [show (⟨alInsert patchc pfx
      ((alGetD patchc pfx ConfigsForPrefix.empty).insertC ty depth d),
      mp, b⟩ : ConfigSchema).configs =
    alInsert patchc pfx
      ((alGetD patchc pfx ConfigsForPrefix.empty).insertC ty depth d) from rfl]
  rw [alGet_alInsert_self]
  show alGet (alInsert (alGetD patchc pfx ConfigsForPrefix.empty).inner ty d) ty = some d
  exact alGet_alInsert_self _ _ _

theorem processItems_nodup (reg : Registry) (is_new : Bool) (fuel : Nat)
    (items : List (String × ConfigData × Option Nat)) (ps ps' : PatchedSchema)
    (h : processItems reg is_new fuel items ps = .ok ps')
    (hnd : alNodup ps.patch.configs)
    (hin : ∀ k cf, alGet ps.patch.configs k = some cf → alNodup cf.inner) :
    alNodup ps'.patch.configs ∧
    ∀ k cf, alGet ps'.patch.configs k = some cf → alNodup cf.inner := by
  induction fuel generalizing items ps with
  | zero =>
    cases items with
    | nil => cases h; exact ⟨hnd, hin⟩
    | cons it rest => cases h
  | succ n ih =>
    cases items with
    | nil => cases h; exact ⟨hnd, hin⟩
    | cons it rest =>
      obtain ⟨pfx, data, depth⟩ := it
      simp only [processItems] at h
      split at h
      · exact ih rest ps h hnd hin
      · split at h
        · cases h
        · rename_i ps1 heq
          obtain ⟨hb1, hc1⟩ := insert_inner_ok reg pfx depth data ps ps1 heq
          have hnd1 : alNodup ps1.patch.configs := by
            rw [hc1]
            exact alNodup_alInsert _ _ _ hnd
          have hin1 : ∀ k cf, alGet ps1.patch.configs k = some cf →
              alNodup cf.inner := by
            intro k cf hk
            rw [hc1] at hk
            by_cases hkp : k = pfx
            · subst hkp
              rw [alGet_alInsert_self] at hk
              cases hk
              show alNodup (alInsert
                (alGetD ps.patch.configs k ConfigsForPrefix.empty).inner
                data.ty (mergeData ps.base k data))
              apply alNodup_alInsert
              unfold alGetD
              cases hg : alGet ps.patch.configs k with
              | some cf0 => exact hin k cf0 hg
              | none => exact List.nodup_nil
            · rw [alGet_alInsert_ne _ _ _ _ hkp] at hk
              exact hin k cf hk
          exact ih _ ps1 h hnd1 hin1

theorem processItems_patch_mono (reg : Registry) (is_new : Bool) (fuel : Nat)
    (items : List (String × ConfigData × Option Nat)) (ps ps' : PatchedSchema)
    (h : processItems reg is_new fuel items ps = .ok ps') (k : String)
    (t : TypeId) (hk : (ps.patch.get_ll k t).isSome) :
    (ps'.patch.get_ll k t).isSome := by
  induction fuel generalizing items ps with
  | zero =>
    cases items with
    | nil => cases h; exact hk
    | cons it rest => cases h
  | succ n ih =>
    cases items with
    | nil => cases h; exact hk
    | cons it rest =>
      obtain ⟨pfx, data, depth⟩ := it
      simp only [processItems] at h
      split at h
      · exact ih rest ps h hk
      · split at h
        · cases h
        · rename_i ps1 heq
          obtain ⟨hb1, hc1⟩ := insert_inner_ok reg pfx depth data ps ps1 heq
          refine ih _ ps1 h ?_
          unfold ConfigSchema.get_ll at hk ⊢
          rw [hc1]
          by_cases hkp : k = pfx
          · subst hkp
            rw [alGet_alInsert_self]
            cases hg : alGet ps.patch.configs k with
            | none => rw [hg] at hk; cases hk
            | some cf0 =>
              rw [hg] at hk
              show (alGet (alInsert
                (alGetD ps.patch.configs k ConfigsForPrefix.empty).inner
                data.ty (mergeData ps.base k data)) t).isSome
              unfold alGetD
              rw [hg]
              exact alGet_alInsert_isSome _ _ _ _ hk
          · rw [alGet_alInsert_ne _ _ _ _ hkp]
            exact hk

theorem processItems_head_present (reg : Registry) (is_new : Bool) (fuel : Nat)
    (pfx : String) (data : ConfigData) (depth : Option Nat)
    (rest : List (String × ConfigData × Option Nat)) (ps ps' : PatchedSchema)
    (h : processItems reg is_new fuel ((pfx, data, depth) :: rest) ps = .ok ps') :
    (ps'.patch.get_ll pfx data.ty).isSome ∨
    (ps.base.get_ll pfx data.ty).isSome := by
  cases fuel with
  | zero => cases h
  | succ n =>
    simp only [processItems] at h
    split at h
    · rename_i hcond
      exact Or.inr hcond.2
    · split at h
      · cases h
      · rename_i ps1 heq
        obtain ⟨hb1, hc1⟩ := insert_inner_ok reg pfx depth data ps ps1 heq
        left
        refine processItems_patch_mono reg is_new n _ ps1 ps' h pfx data.ty ?_
        have : ps1.patch.configs =
            alInsert ps.patch.configs pfx
              ((alGetD ps.patch.configs pfx ConfigsForPrefix.empty).insertC
                data.ty depth (mergeData ps.base pfx data)) := hc1
        unfold ConfigSchema.get_ll
        rw [this, alGet_alInsert_self]
        show (alGet (alInsert
          (alGetD ps.patch.configs pfx ConfigsForPrefix.empty).inner
          data.ty (mergeData ps.base pfx data)) data.ty).isSome
        rw [alGet_alInsert_self]
        rfl

/-- C3: for every metadata and prefix for which `ConfigSchema::insert` has
succeeded, a second `insert` of the same (metadata, prefix) pair on the
resulting schema also succeeds and is idempotent: the worklist skips the
whole subtree of the already-present config, the committed patch is empty,
and the schema is left exactly equal to its state before the second call —
no new mounting points and no duplicate alias entries. -/
theorem c3_insert_idempotent (reg : Registry) (fuel : Nat) (σ : ConfigSchema)
    (ty : TypeId) (pfx : String) (σ1 : ConfigSchema)
    (h : ConfigSchema.insert reg fuel σ ty pfx = (.ok (), σ1)) :
    ConfigSchema.insert reg fuel σ1 ty pfx = (.ok (), σ1) := by
  simp only [ConfigSchema.insert] at h
  split at h
  · rename_i ps hr
    injection h with h1 h2
    cases fuel with
    | zero => cases hr
    | succ n =>
      have hnd := processItems_nodup reg true (n + 1) _ _ _ hr
        (by simp [alNodup, ConfigSchema.empty])
        (fun k cf hk => by simp [ConfigSchema.empty, alGet] at hk)
      have hpres := processItems_head_present reg true (n + 1) pfx
        { ty := ty, parent_link := none, is_top_level := true,
          coerce_serde_enums := σ.coerce_serde_enums,
          all_paths := [(pfx, AliasOptions.new)] } (some 0) [] _ _ hr
      have hbase := processItems_base reg true (n + 1)
        [(pfx,
          { ty := ty, parent_link := none, is_top_level := true,
            coerce_serde_enums := σ.coerce_serde_enums,
            all_paths := [(pfx, AliasOptions.new)] }, some 0)]
        ⟨σ, ConfigSchema.empty⟩
      rw [hr] at hbase
      simp only [OpRes.state] at hbase
      have hsome : (σ1.get_ll pfx ty).isSome := by
        rw [← h2]
        cases hpres with
        | inl hp =>
          replace hp : (ps.patch.get_ll pfx ty).isSome := hp
          unfold ConfigSchema.get_ll at hp
          cases hcf : alGet ps.patch.configs pfx with
          | none => simp [hcf] at hp
          | some cf =>
            simp only [hcf] at hp
            rw [get_ll_commit_patch ps pfx ty cf hnd.1 (hnd.2 pfx cf hcf) hcf]
            cases hd : alGet cf.inner ty with
            | none => simp [hd] at hp
            | some d => simp [hd]
        | inr hb =>
          replace hb : (σ.get_ll pfx ty).isSome := hb
          cases hcf : alGet ps.patch.configs pfx with
          | none =>
            rw [get_ll_commit_nopatch ps pfx ty hnd.1 hcf, hbase]
            exact hb
          | some cf =>
            rw [get_ll_commit_patch ps pfx ty cf hnd.1 (hnd.2 pfx cf hcf) hcf]
            cases hd : alGet cf.inner ty with
            | some d => simp [hd]
            | none =>
              simp only [hd, hbase]
              exact hb
      simp only [ConfigSchema.insert]
      have hskip : processItems reg true (n + 1)
          [(pfx,
            { ty := ty, parent_link := none, is_top_level := true,
              coerce_serde_enums := σ1.coerce_serde_enums,
              all_paths := [(pfx, AliasOptions.new)] }, some 0)]
          ⟨σ1, ConfigSchema.empty⟩ = .ok ⟨σ1, ConfigSchema.empty⟩ := by
        simp only [processItems]
        rw [if_pos ⟨trivial, hsome⟩]
      rw [hskip]
      show (Except.ok (), PatchedSchema.commit ⟨σ1, ConfigSchema.empty⟩) =
        ((Except.ok () : Except String Unit), σ1)
      rw [commit_empty]
  · rename_i e ps hr
    injection h with h1 h2
    cases h1


/-- C3 witness: re-inserting config `A` at `a` into the schema that already
holds it succeeds and returns the schema unchanged. -/
theorem c3_insert_idempotent_witness :
    ConfigSchema.insert regEx 10 exSchema1 1 "a" = (.ok (), exSchema1) :=
  c3_insert_idempotent regEx 10 ConfigSchema.empty 1 "a" exSchema1 rfl

theorem processItems_nil (reg : Registry) (is_new : Bool) (n : Nat)
    (ps : PatchedSchema) : processItems reg is_new n [] ps = .ok ps := by
  cases n <;> rfl

theorem push_alias_noop (reg : Registry) (fuel : Nat) (σ : ConfigSchema)
    (pfx : String) (ty : TypeId) (al : String) (options : AliasOptions)
    (cd : ConfigData) (hg : σ.get_ll pfx ty = some cd)
    (ha : (cd.all_paths.any fun pr => pr.1 = al) = true) :
    push_alias_inner reg fuel σ pfx ty al options = (.ok (), σ) := by
  simp only [push_alias_inner, insert_alias, hg]
  rw [if_pos ha]
  show (Except.ok (), PatchedSchema.commit ⟨σ, ConfigSchema.empty⟩) = _
  rw [commit_empty]

theorem push_alias_append (reg : Registry) (fuel : Nat) (σ : ConfigSchema)
    (pfx : String) (ty : TypeId) (al : String) (options : AliasOptions)
    (cd : ConfigData) (σ1 : ConfigSchema)
    (hg : σ.get_ll pfx ty = some cd) (hty : cd.ty = ty)
    (hnested : (reg ty).nested_configs = [])
    (hno : (cd.all_paths.any fun pr => pr.1 = al) = false)
    (hok : push_alias_inner reg fuel σ pfx ty al options = (.ok (), σ1)) :
    σ1.get_ll pfx ty =
      some { cd with all_paths := cd.all_paths ++ [(al, options)] } := by
  simp only [push_alias_inner, insert_alias, hg] at hok
  rw [if_neg (by simp [hno])] at hok
  split at hok
  · rename_i ps hr
    injection hok with h1 h2
    cases fuel with
    | zero => cases hr
    | succ n =>
      simp only [processItems] at hr
      rw [if_neg (by simp)] at hr
      rw [show list_nested_configs reg pfx { cd with all_paths := [(al, options)] } =
        [] by simp [list_nested_configs, hty, hnested]] at hr
      split at hr
      · cases hr
      · rename_i ps1 heq
        obtain ⟨hb1, hc1⟩ := insert_inner_ok reg pfx none
          { cd with all_paths := [(al, options)] } ⟨σ, ConfigSchema.empty⟩ ps1 heq
        simp only [List.map_nil, List.reverse_nil, List.nil_append] at hr
        rw [processItems_nil] at hr
        have hps : ps1 = ps := by
          cases hr
          rfl
        subst hps
        subst h2
        have hmerge : mergeData σ pfx { cd with all_paths := [(al, options)] } =
            { cd with all_paths := cd.all_paths ++ [(al, options)] } := by
          unfold mergeData
          show (match σ.get_ll pfx cd.ty with
            | some prev => _
            | none => _) = _
          rw [hty, hg]
        have hpatch : ps1.patch.configs =
            [(pfx, ConfigsForPrefix.empty.insertC cd.ty none
              { cd with all_paths := cd.all_paths ++ [(al, options)] })] := by
          rw [hc1, hmerge]
          rfl
        have hcf : alGet ps1.patch.configs pfx =
            some (ConfigsForPrefix.empty.insertC cd.ty none
              { cd with all_paths := cd.all_paths ++ [(al, options)] }) := by
          rw [hpatch]
          simp [alGet]
        rw [get_ll_commit_patch ps1 pfx ty _
          (by rw [hpatch]; simp [alNodup])
          (by simp [ConfigsForPrefix.insertC, ConfigsForPrefix.empty, alNodup, alInsert])
          hcf]
        show (match alGet (alInsert ([] : List (TypeId × ConfigData)) cd.ty
          { cd with all_paths := cd.all_paths ++ [(al, options)] }) ty with
          | some d => some d
          | none => ps1.base.get_ll pfx ty) = _
        rw [hty]
        rw [alGet_alInsert_self]
  · rename_i e ps hr
    injection hok with h1 h2
    cases h1

/-- C6: within one `ConfigData`, alias priority is strictly insertion order
with the canonical prefix always first: on a config without nested configs,
`push_alias` followed by `push_deprecated_alias` at two different strings
appends exactly the two alias entries in call order with the correct
deprecation flags, and pushing an alias that already exists for that
(prefix, type) is a no-op that changes nothing. -/
theorem c6_alias_push_order (reg : Registry) (fuel : Nat) (σ : ConfigSchema)
    (pfx : String) (ty : TypeId) (al1 al2 : String) (cd : ConfigData)
    (σ1 σ2 : ConfigSchema)
    (hg : σ.get_ll pfx ty = some cd) (hty : cd.ty = ty)
    (hnested : (reg ty).nested_configs = [])
    (h1 : (cd.all_paths.any fun pr => pr.1 = al1) = false)
    (h2 : (cd.all_paths.any fun pr => pr.1 = al2) = false)
    (hne : al2 ≠ al1)
    (hok1 : push_alias reg fuel σ pfx ty al1 = (.ok (), σ1))
    (hok2 : push_deprecated_alias reg fuel σ1 pfx ty al2 = (.ok (), σ2)) :
    σ1.get_ll pfx ty =
      some { cd with all_paths := cd.all_paths ++ [(al1, AliasOptions.new)] } ∧
    σ2.get_ll pfx ty =
      some { cd with all_paths :=
        cd.all_paths ++ [(al1, AliasOptions.new), (al2, ⟨true⟩)] } ∧
    (∀ al options, (cd.all_paths.any fun pr => pr.1 = al) = true →
      push_alias_inner reg fuel σ pfx ty al options = (.ok (), σ)) := by
  have hfst := push_alias_append reg fuel σ pfx ty al1 AliasOptions.new cd σ1
    hg hty hnested h1 hok1
  refine ⟨hfst, ?_, ?_⟩
  · have hno2 : ((cd.all_paths ++ [(al1, AliasOptions.new)]).any
        fun pr => pr.1 = al2) = false := by
      have hne' : ¬al1 = al2 := fun hx => hne hx.symm
      simp only [List.any_append, Bool.or_eq_false_iff]
      exact ⟨h2, by simp [hne']⟩
    have hsnd := push_alias_append reg fuel σ1 pfx ty al2 ⟨true⟩
      { cd with all_paths := cd.all_paths ++ [(al1, AliasOptions.new)] } σ2
      hfst hty hnested hno2 hok2
    rw [hsnd]
    simp
  · intro al options ha
    exact push_alias_noop reg fuel σ pfx ty al options cd hg ha

/-- C6 witness: pushing alias `x` then deprecated alias `y` for config `A`
at `a` appends exactly `(x, non-deprecated)` and `(y, deprecated)` in call
order, and re-pushing the existing path `a` is a no-op. -/
theorem c6_alias_push_order_witness :
    (push_alias regEx 10 exSchema1 "a" 1 "x").2.get_ll "a" 1 =
      some { dataA with all_paths :=
        dataA.all_paths ++ [("x", AliasOptions.new)] } ∧
    (push_deprecated_alias regEx 10 (push_alias regEx 10 exSchema1 "a" 1 "x").2
        "a" 1 "y").2.get_ll "a" 1 =
      some { dataA with all_paths :=
        dataA.all_paths ++ [("x", AliasOptions.new), ("y", ⟨true⟩)] } ∧
    push_alias_inner regEx 10 exSchema1 "a" 1 "a" AliasOptions.new =
      (.ok (), exSchema1) := by
  have h := c6_alias_push_order regEx 10 exSchema1 "a" 1 "x" "y" dataA
    (push_alias regEx 10 exSchema1 "a" 1 "x").2
    (push_deprecated_alias regEx 10 (push_alias regEx 10 exSchema1 "a" 1 "x").2
      "a" 1 "y").2
    rfl rfl rfl rfl rfl (by decide) rfl rfl
  exact ⟨h.1, h.2.1, h.2.2 "a" AliasOptions.new rfl⟩

theorem mergeData_ty (base : ConfigSchema) (pfx : String) (data : ConfigData) :
    (mergeData base pfx data).ty = data.ty := by
  unfold mergeData
  cases hb : base.get_ll pfx data.ty <;> rfl

theorem mergeData_paths_some (base : ConfigSchema) (pfx : String)
    (data prev : ConfigData) (hb : base.get_ll pfx data.ty = some prev) :
    (mergeData base pfx data).all_paths = prev.all_paths ++ data.all_paths := by
  unfold mergeData
  rw [hb]

theorem mergeData_none (base : ConfigSchema) (pfx : String) (data : ConfigData)
    (hb : base.get_ll pfx data.ty = none) : mergeData base pfx data = data := by
  unfold mergeData
  rw [hb]

theorem head_fst_append (l1 l2 : List (String × AliasOptions)) (h : l1 ≠ []) :
    (l1 ++ l2).head?.map Prod.fst = l1.head?.map Prod.fst := by
  cases l1 with
  | nil => exact absurd rfl h
  | cons p rest => rfl

theorem all_paths_for_child_cons (data : ConfigData) (name : String)
    (aliases : List (String × AliasOptions)) (tag : Option ConfigVariant)
    (p0 : String × AliasOptions) (rest : List (String × AliasOptions))
    (hp : data.all_paths = p0 :: rest) (hdot : startsDot name = false) :
    ∃ tail, data.all_paths_for_child name aliases tag =
      (Ptr.join p0.1 name, AliasOptions.new.combine p0.2) :: tail := by
  have hjoin : Ptr.joinPath p0.1 name = some (Ptr.join p0.1 name) := by
    unfold Ptr.joinPath
    rw [hdot]
    simp
  simp only [ConfigData.all_paths_for_child, hp, localNames, List.cons_append,
    List.flatMap_cons, List.filterMap_cons, hjoin, Option.map_some]
  exact ⟨_, rfl⟩

/-- The child registrations pushed onto the worklist for one popped item. -/
theorem list_nested_configs_mem (reg : Registry) (pfx : String)
    (data : ConfigData) (n : NestedRef)
    (hn : n ∈ (reg data.ty).nested_configs) :
    ((Ptr.join pfx n.name,
      { ty := n.child_ty,
        parent_link := some ⟨data.ty, n⟩,
        is_top_level := false,
        coerce_serde_enums := data.coerce_serde_enums,
        all_paths := data.all_paths_for_child n.name n.aliases n.tag_variant }) :
      String × ConfigData) ∈ list_nested_configs reg pfx data := by
  unfold list_nested_configs
  exact List.mem_map_of_mem _ hn

theorem child_item_ok (reg : Registry) (hreg : RegOK reg) (base : ConfigSchema)
    (hEP : EntryProp reg base) (k : String) (data : ConfigData)
    (dep : Option Nat) (dep' : Option Nat)
    (hit : ItemOk base (k, data, dep)) (n : NestedRef)
    (hn : n ∈ (reg data.ty).nested_configs) :
    ItemOk base (Ptr.join k n.name,
      { ty := n.child_ty,
        parent_link := some ⟨data.ty, n⟩,
        is_top_level := false,
        coerce_serde_enums := data.coerce_serde_enums,
        all_paths := data.all_paths_for_child n.name n.aliases n.tag_variant },
      dep') := by
  obtain ⟨hne, hbr⟩ := hit
  have hdot : startsDot n.name = false := hreg data.ty n hn
  obtain ⟨p0, rest, hp⟩ := List.exists_cons_of_ne_nil hne
  obtain ⟨tail, hchild⟩ :=
    all_paths_for_child_cons data n.name n.aliases n.tag_variant p0 rest hp hdot
  cases hbr with
  | inl hhead =>
    have hp01 : p0.1 = k := by
      unfold ConfigData.pfx at hhead
      rw [hp] at hhead
      simpa using hhead
    constructor
    · show data.all_paths_for_child n.name n.aliases n.tag_variant ≠ []
      rw [hchild]
      exact List.cons_ne_nil _ _
    · left
      show (data.all_paths_for_child n.name n.aliases
        n.tag_variant).head?.map Prod.fst = some (Ptr.join k n.name)
      rw [hchild]
      simp [hp01]
  | inr hex =>
    obtain ⟨pd, hpd, hpdne, hpdhead⟩ := hex
    have hprops := hEP k data.ty pd hpd
    have hcl := hprops.2.2.2
    rw [hprops.2.2.1] at hcl
    have hcsome := hcl n hn
    obtain ⟨pd', hpd'⟩ := Option.isSome_iff_exists.mp hcsome
    have hprops' := hEP (Ptr.join k n.name) n.child_ty pd' hpd'
    constructor
    · show data.all_paths_for_child n.name n.aliases n.tag_variant ≠ []
      rw [hchild]
      exact List.cons_ne_nil _ _
    · right
      exact ⟨pd', hpd', hprops'.1, hprops'.2.1⟩

theorem processItems_inv (reg : Registry) (hreg : RegOK reg) (is_new : Bool)
    (fuel : Nat) :
    ∀ (items : List (String × ConfigData × Option Nat)) (ps ps' : PatchedSchema),
    processItems reg is_new fuel items ps = .ok ps' →
    EntryProp reg ps.base →
    (∀ it ∈ items, ItemOk ps.base it) →
    PatchProp reg ps.base ps.patch items →
    PatchProp reg ps.base ps'.patch [] := by
  induction fuel with
  | zero =>
    intro items ps ps' h hEP hIt hPP
    cases items with
    | nil => cases h; exact hPP
    | cons it rest => cases h
  | succ nf ih =>
    intro items ps ps' h hEP hIt hPP
    cases items with
    | nil => cases h; exact hPP
    | cons it rest =>
      obtain ⟨pfx, data, depth⟩ := it
      simp only [processItems] at h
      split at h
      · rename_i hcond
        refine ih rest ps ps' h hEP
          (fun it' hit' => hIt it' (List.mem_cons_of_mem _ hit')) ?_
        intro k t d hd
        obtain ⟨ha, hb, hc, hsched⟩ := hPP k t d hd
        refine ⟨ha, hb, hc, ?_⟩
        intro n hn
        rcases hsched n hn with h1 | h2 | ⟨it', hit', he1, he2⟩
        · exact Or.inl h1
        · exact Or.inr (Or.inl h2)
        · rcases List.mem_cons.mp hit' with heq' | hmem
          · refine Or.inr (Or.inl ?_)
            rw [← he1, ← he2, heq']
            exact hcond.2
          · exact Or.inr (Or.inr ⟨it', hmem, he1, he2⟩)
      · split at h
        · cases h
        · rename_i ps1 heq
          obtain ⟨hb1, hc1⟩ := insert_inner_ok reg pfx depth data ps ps1 heq
          have hitem := hIt (pfx, data, depth) (List.mem_cons_self _ _)
          have hmty : (mergeData ps.base pfx data).ty = data.ty :=
            mergeData_ty _ _ _
          have hmprops : (mergeData ps.base pfx data).all_paths ≠ [] ∧
              (mergeData ps.base pfx data).pfx = some pfx := by
            cases hbm : ps.base.get_ll pfx data.ty with
            | some prev =>
              have hpp := hEP pfx data.ty prev hbm
              constructor
              · rw [mergeData_paths_some _ _ _ _ hbm]
                intro hcontra
                exact hpp.1 (List.append_eq_nil.mp hcontra).1
              · show (mergeData ps.base pfx data).all_paths.head?.map Prod.fst =
                  some pfx
                rw [mergeData_paths_some _ _ _ _ hbm,
                  head_fst_append _ _ hpp.1]
                exact hpp.2.1
            | none =>
              rw [mergeData_none _ _ _ hbm]
              obtain ⟨hne, hbr⟩ := hitem
              refine ⟨hne, ?_⟩
              cases hbr with
              | inl hh => exact hh
              | inr hex =>
                obtain ⟨pd, hpd, _, _⟩ := hex
                rw [hbm] at hpd
                cases hpd
          have hgetSelf : ps1.patch.get_ll pfx data.ty =
              some (mergeData ps.base pfx data) := by
            unfold ConfigSchema.get_ll
            rw [hc1, alGet_alInsert_self]
            show alGet (alInsert
              (alGetD ps.patch.configs pfx ConfigsForPrefix.empty).inner
              data.ty (mergeData ps.base pfx data)) data.ty = _
            exact alGet_alInsert_self _ _ _
          have hgetOther : ∀ k t, ¬(k = pfx ∧ t = data.ty) →
              ps1.patch.get_ll k t = ps.patch.get_ll k t := by
            intro k t hkt
            unfold ConfigSchema.get_ll
            rw [hc1]
            by_cases hk : k = pfx
            · subst hk
              rw [alGet_alInsert_self]
              have ht : t ≠ data.ty := fun hx => hkt ⟨rfl, hx⟩
              show alGet (alInsert
                (alGetD ps.patch.configs k ConfigsForPrefix.empty).inner
                data.ty (mergeData ps.base k data)) t = _
              rw [alGet_alInsert_ne _ _ _ _ ht]
              unfold alGetD
              cases hg : alGet ps.patch.configs k with
              | some cf => rfl
              | none => rfl
            · rw [alGet_alInsert_ne _ _ _ _ hk]
          have hmono1 : ∀ k t, (ps.patch.get_ll k t).isSome →
              (ps1.patch.get_ll k t).isSome := by
            intro k t hkt
            by_cases hcase : k = pfx ∧ t = data.ty
            · obtain ⟨hk, ht⟩ := hcase
              subst hk
              subst ht
              rw [hgetSelf]
              rfl
            · rw [hgetOther k t hcase]
              exact hkt
          have hEP1 : EntryProp reg ps1.base := by
            rw [hb1]
            exact hEP
          have hIt1 : ∀ it' ∈
              ((list_nested_configs reg pfx data).map
                (fun pd => (pd.1, pd.2, depth.map (· + 1)))).reverse ++ rest,
              ItemOk ps1.base it' := by
            intro it' hit'
            rw [hb1]
            rcases List.mem_append.mp hit' with hch | hmem
            · rw [List.mem_reverse] at hch
              obtain ⟨pc, hpc, hpcit⟩ := List.mem_map.mp hch
              obtain ⟨n, hn, hpcn⟩ := List.mem_map.mp
                (show pc ∈ (reg data.ty).nested_configs.map _ from hpc)
              subst hpcit
              rw [← hpcn]
              exact child_item_ok reg hreg ps.base hEP pfx data depth
                (depth.map (· + 1)) hitem n hn
            · exact hIt it' (List.mem_cons_of_mem _ hmem)
          have hPP1 : PatchProp reg ps1.base ps1.patch
              (((list_nested_configs reg pfx data).map
                (fun pd => (pd.1, pd.2, depth.map (· + 1)))).reverse ++ rest) := by
            rw [hb1]
            intro k t d hd
            by_cases hcase : k = pfx ∧ t = data.ty
            · obtain ⟨hk, ht⟩ := hcase
              subst hk
              subst ht
              rw [hgetSelf] at hd
              cases hd
              refine ⟨hmprops.1, hmprops.2, hmty, ?_⟩
              intro n hn
              rw [hmty] at hn
              right
              right
              refine ⟨(Ptr.join k n.name,
                { ty := n.child_ty,
                  parent_link := some ⟨data.ty, n⟩,
                  is_top_level := false,
                  coerce_serde_enums := data.coerce_serde_enums,
                  all_paths := data.all_paths_for_child n.name n.aliases
                    n.tag_variant }, depth.map (· + 1)), ?_, rfl, rfl⟩
              refine List.mem_append_left _ ?_
              rw [List.mem_reverse]
              exact List.mem_map_of_mem _ (list_nested_configs_mem reg k data n hn)
            · rw [hgetOther k t hcase] at hd
              obtain ⟨ha, hb, hc, hsched⟩ := hPP k t d hd
              refine ⟨ha, hb, hc, ?_⟩
              intro n hn
              rcases hsched n hn with h1 | h2 | ⟨it', hit', he1, he2⟩
              · exact Or.inl (hmono1 _ _ h1)
              · exact Or.inr (Or.inl h2)
              · rcases List.mem_cons.mp hit' with heq' | hmem
                · left
                  rw [← he1, ← he2, heq']
                  show (ps1.patch.get_ll pfx data.ty).isSome
                  rw [hgetSelf]
                  rfl
                · exact Or.inr (Or.inr
                    ⟨it', List.mem_append_right _ hmem, he1, he2⟩)
          have hfinal := ih _ ps1 ps' h hEP1 hIt1 hPP1
          rw [hb1] at hfinal
          exact hfinal

theorem commit_present_patch (ps : PatchedSchema) (k : String) (t : TypeId)
    (hnd : alNodup ps.patch.configs)
    (hin : ∀ k cf, alGet ps.patch.configs k = some cf → alNodup cf.inner)
    (h : (ps.patch.get_ll k t).isSome) : (ps.commit.get_ll k t).isSome := by
  unfold ConfigSchema.get_ll at h
  cases hcf : alGet ps.patch.configs k with
  | none => simp [hcf] at h
  | some cf =>
    rw [get_ll_commit_patch ps k t cf hnd (hin k cf hcf) hcf]
    simp only [hcf] at h
    cases hd : alGet cf.inner t with
    | some d => simp [hd]
    | none => simp [hd] at h

theorem commit_present_base (ps : PatchedSchema) (k : String) (t : TypeId)
    (hnd : alNodup ps.patch.configs)
    (hin : ∀ k cf, alGet ps.patch.configs k = some cf → alNodup cf.inner)
    (h : (ps.base.get_ll k t).isSome) : (ps.commit.get_ll k t).isSome := by
  cases hcf : alGet ps.patch.configs k with
  | none =>
    rw [get_ll_commit_nopatch ps k t hnd hcf]
    exact h
  | some cf =>
    rw [get_ll_commit_patch ps k t cf hnd (hin k cf hcf) hcf]
    cases hd : alGet cf.inner t with
    | some d => simp [hd]
    | none =>
      simp only [hd]
      exact h

theorem commit_EntryProp (reg : Registry) (ps : PatchedSchema)
    (hnd : alNodup ps.patch.configs)
    (hin : ∀ k cf, alGet ps.patch.configs k = some cf → alNodup cf.inner)
    (hEP : EntryProp reg ps.base)
    (hPP : PatchProp reg ps.base ps.patch []) :
    EntryProp reg ps.commit := by
  intro k t d hd
  cases hcf : alGet ps.patch.configs k with
  | none =>
    rw [get_ll_commit_nopatch ps k t hnd hcf] at hd
    obtain ⟨ha, hb, hc, hcl⟩ := hEP k t d hd
    exact ⟨ha, hb, hc, fun n hn =>
      commit_present_base ps _ _ hnd hin (hcl n hn)⟩
  | some cf =>
    rw [get_ll_commit_patch ps k t cf hnd (hin k cf hcf) hcf] at hd
    cases hdc : alGet cf.inner t with
    | some d0 =>
      simp only [hdc] at hd
      cases hd
      have hpd : ps.patch.get_ll k t = some d := by
        unfold ConfigSchema.get_ll
        rw [hcf]
        exact hdc
      obtain ⟨ha, hb, hc, hsched⟩ := hPP k t d hpd
      refine ⟨ha, hb, hc, ?_⟩
      intro n hn
      rcases hsched n hn with h1 | h2 | ⟨it, hit, _, _⟩
      · exact commit_present_patch ps _ _ hnd hin h1
      · exact commit_present_base ps _ _ hnd hin h2
      · cases hit
    | none =>
      simp only [hdc] at hd
      obtain ⟨ha, hb, hc, hcl⟩ := hEP k t d hd
      exact ⟨ha, hb, hc, fun n hn =>
        commit_present_base ps _ _ hnd hin (hcl n hn)⟩

theorem foldl_alInsert_nodup {κ α : Type} [DecidableEq κ]
    (l : List (κ × α)) (acc : List (κ × α)) (h : alNodup acc) :
    alNodup (l.foldl (fun a p => alInsert a p.1 p.2) acc) := by
  induction l generalizing acc with
  | nil => exact h
  | cons p rest ih => exact ih _ (alNodup_alInsert _ _ _ h)

theorem foldl_merge_nodup {κ α β : Type} [DecidableEq κ] (f : α → β → α)
    (d : α) (l : List (κ × β)) (acc : List (κ × α)) (h : alNodup acc) :
    alNodup (l.foldl
      (fun a p => alInsert a p.1 (f (alGetD a p.1 d) p.2)) acc) := by
  induction l generalizing acc with
  | nil => exact h
  | cons p rest ih => exact ih _ (alNodup_alInsert _ _ _ h)

theorem commit_NodupInv (ps : PatchedSchema)
    (hnd : alNodup ps.patch.configs)
    (_hin : ∀ k cf, alGet ps.patch.configs k = some cf → alNodup cf.inner)
    (hbase : NodupInv ps.base) : NodupInv ps.commit := by
  constructor
  · exact foldl_merge_nodup (fun a b => a.extendC b) ConfigsForPrefix.empty
      ps.patch.configs ps.base.configs hbase.1
  · intro k cf hcf
    cases hp : alGet ps.patch.configs k with
    | none =>
      rw [commit_configs_get_none ps k hnd hp] at hcf
      exact hbase.2 k cf hcf
    | some cfp =>
      rw [commit_configs_get_some ps k cfp hnd hp] at hcf
      cases hcf
      show alNodup (cfp.inner.foldl (fun a p => alInsert a p.1 p.2)
        (alGetD ps.base.configs k ConfigsForPrefix.empty).inner)
      apply foldl_alInsert_nodup
      unfold alGetD
      cases hb : alGet ps.base.configs k with
      | some cfb => exact hbase.2 k cfb hb
      | none => exact List.nodup_nil

theorem run_commit_inv (reg : Registry) (hreg : RegOK reg) (is_new : Bool)
    (fuel : Nat) (items : List (String × ConfigData × Option Nat))
    (σ : ConfigSchema) (ps : PatchedSchema)
    (hr : processItems reg is_new fuel items ⟨σ, ConfigSchema.empty⟩ = .ok ps)
    (hEP : EntryProp reg σ) (hND : NodupInv σ)
    (hIt : ∀ it ∈ items, ItemOk σ it) :
    EntryProp reg ps.commit ∧ NodupInv ps.commit := by
  have hbase := processItems_base reg is_new fuel items ⟨σ, ConfigSchema.empty⟩
  rw [hr] at hbase
  simp only [OpRes.state] at hbase
  have hnd := processItems_nodup reg is_new fuel _ _ _ hr
    (by simp [ConfigSchema.empty, alNodup])
    (fun k cf hk => by simp [ConfigSchema.empty, alGet] at hk)
  have hPP0 : PatchProp reg (⟨σ, ConfigSchema.empty⟩ : PatchedSchema).base
      (⟨σ, ConfigSchema.empty⟩ : PatchedSchema).patch items := by
    intro k t d hd
    simp [ConfigSchema.empty, ConfigSchema.get_ll, alGet] at hd
  have hfin := processItems_inv reg hreg is_new fuel items
    ⟨σ, ConfigSchema.empty⟩ ps hr hEP hIt hPP0
  have hEPb : EntryProp reg ps.base := by
    rw [hbase]
    exact hEP
  have hPPb : PatchProp reg ps.base ps.patch [] := by
    rw [hbase]
    exact hfin
  have hNDb : NodupInv ps.base := by
    rw [hbase]
    exact hND
  exact ⟨commit_EntryProp reg ps hnd.1 hnd.2 hEPb hPPb,
    commit_NodupInv ps hnd.1 hnd.2 hNDb⟩

theorem insert_preserves_inv (reg : Registry) (hreg : RegOK reg) (fuel : Nat)
    (σ : ConfigSchema) (ty : TypeId) (pfx : String) (σ' : ConfigSchema)
    (h : ConfigSchema.insert reg fuel σ ty pfx = (.ok (), σ'))
    (hEP : EntryProp reg σ) (hND : NodupInv σ) :
    EntryProp reg σ' ∧ NodupInv σ' := by
  simp only [ConfigSchema.insert] at h
  split at h
  · rename_i ps hr
    injection h with h1 h2
    subst h2
    refine run_commit_inv reg hreg true fuel _ σ ps hr hEP hND ?_
    intro it hit
    rcases List.mem_singleton.mp hit with rfl
    exact ⟨by simp, Or.inl rfl⟩
  · rename_i e ps hr
    injection h with h1 h2
    cases h1

theorem push_preserves_inv (reg : Registry) (hreg : RegOK reg) (fuel : Nat)
    (σ : ConfigSchema) (pfx : String) (ty : TypeId) (al : String)
    (options : AliasOptions) (σ' : ConfigSchema)
    (h : push_alias_inner reg fuel σ pfx ty al options = (.ok (), σ'))
    (hEP : EntryProp reg σ) (hND : NodupInv σ) :
    EntryProp reg σ' ∧ NodupInv σ' := by
  simp only [push_alias_inner] at h
  split at h
  · rename_i ps hr
    injection h with h1 h2
    simp only [insert_alias] at hr
    split at hr
    · cases hr
    · rename_i cd hg
      split at hr
      · cases hr
        rw [commit_empty] at h2
        subst h2
        exact ⟨hEP, hND⟩
      · rename_i hany
        have hprops := hEP pfx ty cd hg
        rw [← h2]
        refine run_commit_inv reg hreg false fuel _ σ ps hr hEP hND ?_
        intro it hit
        rcases List.mem_singleton.mp hit with rfl
        refine ⟨by simp, Or.inr ⟨cd, ?_, hprops.1, hprops.2.1⟩⟩
        show σ.get_ll pfx cd.ty = some cd
        rw [hprops.2.2.1]
        exact hg
  · rename_i e ps hr
    injection h with h1 h2
    cases h1

theorem coerce_preserves_inv (reg : Registry) (σ : ConfigSchema) (b : Bool)
    (hEP : EntryProp reg σ) (hND : NodupInv σ) :
    EntryProp reg (σ.set_coerce b) ∧ NodupInv (σ.set_coerce b) := by
  constructor
  · intro k t d hd
    obtain ⟨ha, hb, hc, hcl⟩ := hEP k t d hd
    exact ⟨ha, hb, hc, fun n hn => hcl n hn⟩
  · exact hND

theorem reachable_inv (reg : Registry) (hreg : RegOK reg) (σ : ConfigSchema)
    (h : Reachable reg σ) : EntryProp reg σ ∧ NodupInv σ := by
  induction h with
  | empty =>
    constructor
    · intro k t d hd
      simp [ConfigSchema.empty, ConfigSchema.get_ll, alGet] at hd
    · exact ⟨by simp [ConfigSchema.empty, alNodup],
        fun k cf hcf => by simp [ConfigSchema.empty, alGet] at hcf⟩
  | coerce σ0 b h0 ih => exact coerce_preserves_inv reg σ0 b ih.1 ih.2
  | insert_ok σ0 σ' fuel ty pfx h0 heq ih =>
    exact insert_preserves_inv reg hreg fuel σ0 ty pfx σ' heq ih.1 ih.2
  | alias_ok σ0 σ' fuel pfx ty al options h0 heq ih =>
    exact push_preserves_inv reg hreg fuel σ0 pfx ty al options σ' heq ih.1 ih.2

/-- C10: in every schema reachable from the empty schema through the public
construction operations (over a well-formed metadata registry whose nested
config names are field names, not relative paths), every stored
`ConfigData` — whether created by a direct insert, an alias push, or
nested-config discovery — has a nonempty `all_paths` list whose first
element is exactly the canonical prefix under which it is keyed; hence
`ConfigData::prefix` (which indexes `all_paths[0]`) and `ConfigRef::prefix`
never panic. -/
theorem c10_canonical_prefix_first (reg : Registry) (σ : ConfigSchema)
    (hreg : RegOK reg) (h : Reachable reg σ) :
    ∀ k t d, σ.get_ll k t = some d →
      d.all_paths ≠ [] ∧ d.pfx = some k := by
  intro k t d hd
  have hp := (reachable_inv reg hreg σ h).1 k t d hd
  exact ⟨hp.1, hp.2.1⟩

/-- C10 witness: in the concrete schema built by two insertions, the stored
registration of config `A` has nonempty paths headed by its canonical
prefix `a`. -/
theorem c10_canonical_prefix_first_witness :
    dataA.all_paths ≠ [] ∧ dataA.pfx = some "a" := by
  have hreg : RegOK regEx := by
    intro t n hn
    unfold regEx at hn
    split at hn
    · simp [metaA] at hn
    · split at hn
      · simp [metaB] at hn
      · split at hn
        · simp [metaF] at hn
        · simp at hn
  have hreach : Reachable regEx exSchema2 :=
    Reachable.insert_ok exSchema1 exSchema2 10 2 "a"
      (Reachable.insert_ok ConfigSchema.empty exSchema1 10 1 "a"
        Reachable.empty rfl) rfl
  exact c10_canonical_prefix_first regEx exSchema2 hreg hreach "a" 1 dataA rfl

end SmartConfig
